import Mathlib

/-!
Verification development for the idx-list time-series store and indicator
engine.  The definitions shallowly embed `src/app/services/indicators.py`,
`src/app/data/repository.py`, `src/app/data/models.py` and
`src/app/core/config.py`: floats become `ℚ`, timestamps become `ℤ`,
pandas frames become lists of rows, SQL tables become key-sorted lists of
rows, and `None`/`NaN` become `Option`.
-/

namespace IdxList

/-! ## Symbol and key ordering

Python string `<`, pandas string sorting and SQLite BINARY collation all
compare strings by code point, which we embed as a lexicographic order on
the character list.  A storage key is `(symbol, ts_utc)` as in both
backends' primary keys. -/

def charLt (a b : Char) : Bool := decide (a.toNat < b.toNat)

def charListLt : List Char → List Char → Bool
  | _, [] => false
  | [], _ :: _ => true
  | a :: as, b :: bs => charLt a b || (decide (a = b) && charListLt as bs)

/-- Code-point lexicographic string comparison (Python `<` on `str`,
SQLite BINARY collation). -/
def strLt (a b : String) : Bool := charListLt a.data b.data

abbrev Key := String × ℤ

/-- Lexicographic order on `(symbol, ts_utc)` keys, as used by
`sort_values(["symbol", "ts_utc"])` and the SQL primary key. -/
def keyLt (a b : Key) : Bool :=
  strLt a.1 b.1 || (decide (a.1 = b.1) && decide (a.2 < b.2))

theorem charLt_asymm {a b : Char} (h : charLt a b = true) : charLt b a = false := by
  simp [charLt] at h ⊢
  omega

theorem charLt_conn {a b : Char} (h1 : charLt a b = false) (h2 : charLt b a = false) :
    a = b := by
  simp [charLt] at h1 h2
  have h : a.toNat = b.toNat := by omega
  unfold Char.toNat at h
  exact Char.ext (UInt32.toNat.inj h)

theorem charLt_cotrans {a b c : Char} (h : charLt c a = true) :
    charLt c b = true ∨ charLt b a = true := by
  simp [charLt] at h ⊢
  omega

theorem charListLt_asymm : ∀ {as bs : List Char},
    charListLt as bs = true → charListLt bs as = false
  | _, [], h => by simp [charListLt] at h
  | [], _ :: _, _ => by simp [charListLt]
  | a :: as, b :: bs, h => by
    simp only [charListLt, Bool.or_eq_true, Bool.and_eq_true, decide_eq_true_eq] at h ⊢
    rcases h with h | ⟨rfl, h⟩
    · have hba := charLt_asymm h
      have : ¬ b = a := by
        rintro rfl
        simp [charLt] at h
      simp [hba, this]
    · have : charLt a a = false := by simp [charLt]
      simp [this, charListLt_asymm h]

theorem charListLt_conn : ∀ {as bs : List Char},
    charListLt as bs = false → charListLt bs as = false → as = bs
  | [], [], _, _ => rfl
  | [], _ :: _, h1, _ => by simp [charListLt] at h1
  | _ :: _, [], _, h2 => by simp [charListLt] at h2
  | a :: as, b :: bs, h1, h2 => by
    simp only [charListLt, Bool.or_eq_false_iff] at h1 h2
    obtain ⟨hab, h1'⟩ := h1
    obtain ⟨hba, h2'⟩ := h2
    have hab' : a = b := charLt_conn hab hba
    subst hab'
    simp at h1' h2'
    rw [charListLt_conn h1' h2']

theorem charListLt_cotrans : ∀ {as bs cs : List Char},
    charListLt cs as = true → charListLt cs bs = true ∨ charListLt bs as = true
  | [], _, _, h => by simp [charListLt] at h
  | _ :: _, [], [], _ => Or.inr (by simp [charListLt])
  | _ :: _, _ :: _, [], _ => Or.inl (by simp [charListLt])
  | a :: as, [], b :: bs, _ => Or.inr (by simp [charListLt])
  | a :: as, b :: bs, c :: cs, h => by
    simp only [charListLt, Bool.or_eq_true, Bool.and_eq_true, decide_eq_true_eq] at h ⊢
    rcases h with h | ⟨rfl, h⟩
    · rcases charLt_cotrans (b := b) h with h' | h'
      · exact Or.inl (Or.inl h')
      · exact Or.inr (Or.inl h')
    · by_cases hcb : charLt c b = true
      · exact Or.inl (Or.inl hcb)
      · by_cases hbc : charLt b c = true
        · exact Or.inr (Or.inl hbc)
        · have : b = c := charLt_conn (by simpa using hbc) (by simpa using hcb)
          subst this
          rcases @charListLt_cotrans as bs cs h with h' | h'
          · exact Or.inl (Or.inr ⟨rfl, h'⟩)
          · exact Or.inr (Or.inr ⟨rfl, h'⟩)

theorem strLt_asymm {a b : String} (h : strLt a b = true) : strLt b a = false :=
  charListLt_asymm h

theorem strLt_conn {a b : String} (h1 : strLt a b = false) (h2 : strLt b a = false) :
    a = b :=
  String.ext (charListLt_conn h1 h2)

theorem strLt_cotrans {a b c : String} (h : strLt c a = true) :
    strLt c b = true ∨ strLt b a = true :=
  charListLt_cotrans h

theorem keyLt_irrefl (k : Key) : keyLt k k = false := by
  rcases k with ⟨s, t⟩
  have : strLt s s = false := by
    by_cases h : strLt s s = true
    · have := charListLt_asymm h
      simp [strLt] at this h
      rw [this] at h
      exact absurd h (by simp)
    · simpa using h
  simp [keyLt, this]

theorem keyLt_asymm {a b : Key} (h : keyLt a b = true) : keyLt b a = false := by
  rcases a with ⟨sa, ta⟩
  rcases b with ⟨sb, tb⟩
  simp only [keyLt, Bool.or_eq_true, Bool.and_eq_true, decide_eq_true_eq] at h ⊢
  rcases h with h | ⟨rfl, h⟩
  · have h1 := strLt_asymm h
    have h2 : ¬ sb = sa := by
      rintro rfl
      rw [h1] at h
      exact absurd h (by simp)
    simp [h1, h2]
  · have : strLt sa sa = false := by
      simpa [keyLt] using keyLt_irrefl (sa, ta)
    simp [this]
    omega

theorem keyLt_conn {a b : Key} (h1 : keyLt a b = false) (h2 : keyLt b a = false) :
    a = b := by
  rcases a with ⟨sa, ta⟩
  rcases b with ⟨sb, tb⟩
  simp only [keyLt, Bool.or_eq_false_iff] at h1 h2
  obtain ⟨hs1, h1'⟩ := h1
  obtain ⟨hs2, h2'⟩ := h2
  have hs : sa = sb := strLt_conn hs1 hs2
  subst hs
  simp at h1' h2'
  have : ta = tb := le_antisymm h2' h1'
  rw [this]

theorem keyLt_cotrans {a b c : Key} (h : keyLt c a = true) :
    keyLt c b = true ∨ keyLt b a = true := by
  rcases a with ⟨sa, ta⟩
  rcases b with ⟨sb, tb⟩
  rcases c with ⟨sc, tc⟩
  simp only [keyLt, Bool.or_eq_true, Bool.and_eq_true, decide_eq_true_eq] at h ⊢
  rcases h with h | ⟨rfl, h⟩
  · rcases strLt_cotrans (b := sb) h with h' | h'
    · exact Or.inl (Or.inl h')
    · exact Or.inr (Or.inl h')
  · by_cases hcb : strLt sc sb = true
    · exact Or.inl (Or.inl hcb)
    · by_cases hbc : strLt sb sc = true
      · exact Or.inr (Or.inl hbc)
      · have : sb = sc := strLt_conn (by simpa using hbc) (by simpa using hcb)
        subst this
        rcases Int.lt_or_le tc tb with h' | h'
        · exact Or.inl (Or.inr ⟨rfl, h'⟩)
        · exact Or.inr (Or.inr ⟨rfl, lt_of_le_of_lt h' h⟩)

theorem keyLt_trans {a b c : Key} (h1 : keyLt a b = true) (h2 : keyLt b c = true) :
    keyLt a c = true := by
  rcases keyLt_cotrans (b := c) h1 with h | h
  · exact h
  · rw [keyLt_asymm h2] at h
    exact absurd h (by simp)

/-! ## Generic stable sort, keep-last dedup and keyed replace

`sortByLt` is the stable sort `pandas.sort_values` performs on the key
columns (`np.lexsort` is stable for multi-column sorts); `dedupKeepLast`
is `drop_duplicates(subset=key, keep="last")`; `insertReplace` is the
single-row effect of SQL `INSERT OR REPLACE` on a table keyed by
`(symbol, ts_utc)`, represented canonically as a key-sorted list. -/

def insertByLt {α : Type} (lt : α → α → Bool) (a : α) : List α → List α
  | [] => [a]
  | y :: ys => if lt y a then y :: insertByLt lt a ys else a :: y :: ys

def sortByLt {α : Type} (lt : α → α → Bool) (l : List α) : List α :=
  l.foldr (insertByLt lt) []

def rowLtBy {α : Type} (key : α → Key) (a b : α) : Bool := keyLt (key a) (key b)

def dedupKeepLast {α : Type} (key : α → Key) : List α → List α
  | [] => []
  | x :: xs =>
    if xs.any (fun y => decide (key y = key x)) then dedupKeepLast key xs
    else x :: dedupKeepLast key xs

/-- The binding the store holds for key `k`: the last row of `l` whose key
is `k` (later writes win). -/
def lastAssoc {α : Type} (key : α → Key) (l : List α) (k : Key) : Option α :=
  (l.filter (fun r => decide (key r = k))).getLast?

/-- The SQL `INSERT OR REPLACE` of one row into a key-sorted table. -/
def insertReplace {α : Type} (key : α → Key) (r : α) : List α → List α
  | [] => [r]
  | x :: xs =>
    if key r = key x then r :: xs
    else if keyLt (key r) (key x) then r :: x :: xs
    else x :: insertReplace key r xs

/-- The `executemany` of `INSERT OR REPLACE`: rows are applied in order. -/
def upsertList {α : Type} (key : α → Key) (rows : List α) (l : List α) : List α :=
  rows.foldl (fun acc r => insertReplace key r acc) l

/-- The full-file rewrite performed by the CSV backend's upsert: load,
concatenate, stable-sort by `(symbol, ts_utc)`, drop duplicate keys
keeping the newest, rewrite. -/
def csvCombine {α : Type} (key : α → Key) (old new : List α) : List α :=
  dedupKeepLast key (sortByLt (rowLtBy key) (old ++ new))

/-- A list is strictly sorted on keys (the invariant of both stores). -/
def SortedKeys {α : Type} (key : α → Key) (l : List α) : Prop :=
  List.Pairwise (fun a b => keyLt (key a) (key b) = true) l

theorem insertByLt_perm {α : Type} (lt : α → α → Bool) (a : α) (l : List α) :
    (insertByLt lt a l).Perm (a :: l) := by
  induction l with
  | nil => simp [insertByLt]
  | cons y ys ih =>
    simp only [insertByLt]
    by_cases h : lt y a = true
    · rw [if_pos h]
      exact ((ih.cons y).trans (List.Perm.swap a y ys))
    · rw [if_neg h]

theorem sortByLt_perm {α : Type} (lt : α → α → Bool) (l : List α) :
    (sortByLt lt l).Perm l := by
  induction l with
  | nil => simp [sortByLt]
  | cons x xs ih =>
    simp only [sortByLt, List.foldr_cons]
    exact (insertByLt_perm lt x _).trans (ih.cons x)

theorem pairwise_insertByLt {α : Type} (lt : α → α → Bool)
    (hasym : ∀ a b, lt a b = true → lt b a = false)
    (hcotrans : ∀ a b c, lt c a = true → lt c b = true ∨ lt b a = true)
    (a : α) (l : List α) (hl : List.Pairwise (fun x y => lt y x = false) l) :
    List.Pairwise (fun x y => lt y x = false) (insertByLt lt a l) := by
  induction l with
  | nil => simp [insertByLt]
  | cons y ys ih =>
    rcases List.pairwise_cons.mp hl with ⟨hy, hys⟩
    simp only [insertByLt]
    by_cases h : lt y a = true
    · rw [if_pos h]
      refine List.pairwise_cons.mpr ⟨?_, ih hys⟩
      intro z hz
      rcases List.mem_cons.mp ((insertByLt_perm lt a ys).mem_iff.mp hz) with rfl | hz
      · exact hasym _ _ h
      · exact hy z hz
    · rw [if_neg h]
      refine List.pairwise_cons.mpr ⟨?_, hl⟩
      intro z hz
      rcases List.mem_cons.mp hz with rfl | hz
      · simpa using h
      · by_contra hc
        simp only [Bool.not_eq_false] at hc
        rcases hcotrans a y z hc with h1 | h1
        · rw [hy z hz] at h1
          exact absurd h1 (by simp)
        · exact h h1

theorem pairwise_sortByLt {α : Type} (lt : α → α → Bool)
    (hasym : ∀ a b, lt a b = true → lt b a = false)
    (hcotrans : ∀ a b c, lt c a = true → lt c b = true ∨ lt b a = true)
    (l : List α) :
    List.Pairwise (fun x y => lt y x = false) (sortByLt lt l) := by
  induction l with
  | nil => simp [sortByLt]
  | cons x xs ih =>
    simp only [sortByLt, List.foldr_cons]
    exact pairwise_insertByLt lt hasym hcotrans x _ ih

theorem filter_insertByLt_pos {α : Type} (lt : α → α → Bool) (p : α → Bool)
    (a : α) (hpa : p a = true) (hlt : ∀ y, p y = true → lt y a = false)
    (l : List α) :
    (insertByLt lt a l).filter p = a :: l.filter p := by
  induction l with
  | nil => simp [insertByLt, hpa]
  | cons y ys ih =>
    simp only [insertByLt]
    by_cases h : lt y a = true
    · rw [if_pos h]
      have hpy : p y = false := by
        by_cases hp : p y = true
        · rw [hlt y hp] at h
          exact absurd h (by simp)
        · simpa using hp
      simp [List.filter_cons, hpy, ih]
    · rw [if_neg h]
      simp [List.filter_cons, hpa]

theorem filter_insertByLt_neg {α : Type} (lt : α → α → Bool) (p : α → Bool)
    (a : α) (hpa : p a = false) (l : List α) :
    (insertByLt lt a l).filter p = l.filter p := by
  induction l with
  | nil => simp [insertByLt, hpa]
  | cons y ys ih =>
    simp only [insertByLt]
    by_cases h : lt y a = true
    · rw [if_pos h]
      simp [List.filter_cons, ih]
    · rw [if_neg h]
      simp [List.filter_cons, hpa]

/-- Stability of the sort: the subsequence of rows with any fixed key is
unchanged, because equal keys never compare as less. -/
theorem filter_key_sortByLt {α : Type} (key : α → Key) (k : Key) (l : List α) :
    (sortByLt (rowLtBy key) l).filter (fun r => decide (key r = k)) =
      l.filter (fun r => decide (key r = k)) := by
  induction l with
  | nil => simp [sortByLt]
  | cons x xs ih =>
    have ih' : (List.foldr (insertByLt (rowLtBy key)) [] xs).filter
        (fun r => decide (key r = k)) = xs.filter (fun r => decide (key r = k)) := ih
    simp only [sortByLt, List.foldr_cons]
    by_cases hx : key x = k
    · rw [filter_insertByLt_pos (rowLtBy key) _ x (by simp [hx]) ?_]
      · rw [ih']
        simp [List.filter_cons, hx]
      · intro y hy
        simp only [decide_eq_true_eq] at hy
        simp [rowLtBy, hy, hx, keyLt_irrefl]
    · rw [filter_insertByLt_neg (rowLtBy key) _ x (by simp [hx])]
      rw [ih']
      simp [List.filter_cons, hx]

theorem lastAssoc_sortByLt {α : Type} (key : α → Key) (l : List α) (k : Key) :
    lastAssoc key (sortByLt (rowLtBy key) l) k = lastAssoc key l k := by
  simp [lastAssoc, filter_key_sortByLt]

theorem dedupKeepLast_sublist {α : Type} (key : α → Key) (l : List α) :
    (dedupKeepLast key l).Sublist l := by
  induction l with
  | nil => simp [dedupKeepLast]
  | cons x xs ih =>
    simp only [dedupKeepLast]
    by_cases h : xs.any (fun y => decide (key y = key x)) = true
    · rw [if_pos h]
      exact ih.cons x
    · rw [if_neg h]
      exact ih.cons₂ x

theorem getLast?_cons_ne_nil {α : Type} {l : List α} (a : α) (h : l ≠ []) :
    (a :: l).getLast? = l.getLast? := by
  cases l with
  | nil => exact absurd rfl h
  | cons b bs => exact List.getLast?_cons_cons

theorem lastAssoc_cons_of_nil {α : Type} {key : α → Key} {x : α} {xs : List α} {k : Key}
    (hf : xs.filter (fun r => decide (key r = k)) = []) :
    lastAssoc key (x :: xs) k = if key x = k then some x else none := by
  simp only [lastAssoc, List.filter_cons]
  by_cases hx : key x = k
  · rw [if_pos (by simp [hx]), if_pos hx, hf]
    rfl
  · rw [if_neg (by simp [hx]), if_neg hx, hf]
    rfl

theorem lastAssoc_cons_of_ne {α : Type} {key : α → Key} {x : α} {xs : List α} {k : Key}
    (hf : xs.filter (fun r => decide (key r = k)) ≠ []) :
    lastAssoc key (x :: xs) k = lastAssoc key xs k := by
  simp only [lastAssoc, List.filter_cons]
  by_cases hx : key x = k
  · rw [if_pos (by simp [hx]), getLast?_cons_ne_nil x hf]
  · rw [if_neg (by simp [hx])]

theorem lastAssoc_cons_of_head_ne {α : Type} {key : α → Key} {x : α} {xs : List α}
    {k : Key} (hx : key x ≠ k) :
    lastAssoc key (x :: xs) k = lastAssoc key xs k := by
  simp only [lastAssoc, List.filter_cons]
  rw [if_neg (by simp [hx])]

theorem mem_of_getLast?_eq {α : Type} : ∀ {l : List α} {a : α},
    l.getLast? = some a → a ∈ l
  | [], a, h => by simp at h
  | [x], a, h => by
    simp only [List.getLast?_singleton, Option.some.injEq] at h
    simp [h]
  | x :: y :: ys, a, h => by
    rw [List.getLast?_cons_cons] at h
    exact List.mem_cons_of_mem x (mem_of_getLast?_eq h)

theorem getLast?_ne_none {α : Type} {l : List α} (h : l ≠ []) :
    l.getLast? ≠ none := by
  induction l with
  | nil => exact absurd rfl h
  | cons a as ih =>
    cases as with
    | nil => simp
    | cons b bs =>
      rw [List.getLast?_cons_cons]
      exact ih (by simp)

theorem lastAssoc_dedupKeepLast {α : Type} (key : α → Key) (l : List α) (k : Key) :
    lastAssoc key (dedupKeepLast key l) k = lastAssoc key l k := by
  induction l with
  | nil => rfl
  | cons x xs ih =>
    simp only [dedupKeepLast]
    by_cases h : xs.any (fun y => decide (key y = key x)) = true
    · rw [if_pos h, ih]
      by_cases hx : key x = k
      · subst hx
        obtain ⟨y, hy, hyk⟩ := List.any_eq_true.mp h
        simp only [decide_eq_true_eq] at hyk
        have hne : xs.filter (fun r => decide (key r = key x)) ≠ [] := by
          intro hnil
          have := List.filter_eq_nil_iff.mp hnil y hy
          simp [hyk] at this
        rw [lastAssoc_cons_of_ne hne]
      · by_cases hf : xs.filter (fun r => decide (key r = k)) = []
        · rw [lastAssoc_cons_of_nil hf, if_neg hx]
          simp [lastAssoc, hf]
        · rw [lastAssoc_cons_of_ne hf]
    · rw [if_neg h]
      have hnk : ∀ y ∈ xs, ¬ key y = key x := by
        intro y hy hc
        apply absurd h
        simp only [ne_eq, Bool.not_eq_true, List.any_eq_false, decide_eq_false_iff_not,
          not_forall, not_not]
        exact ⟨y, hy, hc⟩
      by_cases hx : key x = k
      · subst hx
        have h1 : xs.filter (fun r => decide (key r = key x)) = [] :=
          List.filter_eq_nil_iff.mpr (by intro y hy; simpa using hnk y hy)
        have h2 : (dedupKeepLast key xs).filter (fun r => decide (key r = key x)) = [] :=
          List.filter_eq_nil_iff.mpr (by
            intro y hy
            simpa using hnk y ((dedupKeepLast_sublist key xs).mem hy))
        rw [lastAssoc_cons_of_nil h1, lastAssoc_cons_of_nil h2]
      · by_cases hf : xs.filter (fun r => decide (key r = k)) = []
        · have h2 : (dedupKeepLast key xs).filter (fun r => decide (key r = k)) = [] :=
            List.filter_eq_nil_iff.mpr (by
              intro y hy
              exact List.filter_eq_nil_iff.mp hf y ((dedupKeepLast_sublist key xs).mem hy))
          rw [lastAssoc_cons_of_nil hf, lastAssoc_cons_of_nil h2]
        · have h2 : (dedupKeepLast key xs).filter (fun r => decide (key r = k)) ≠ [] := by
            intro hnil
            have hl : lastAssoc key (dedupKeepLast key xs) k = none := by
              simp [lastAssoc, hnil]
            rw [ih] at hl
            exact getLast?_ne_none hf hl
          rw [lastAssoc_cons_of_ne hf, lastAssoc_cons_of_ne h2]
          exact ih

theorem nodupKeys_dedupKeepLast {α : Type} (key : α → Key) (l : List α) :
    List.Pairwise (fun a b => key a ≠ key b) (dedupKeepLast key l) := by
  induction l with
  | nil => simp [dedupKeepLast]
  | cons x xs ih =>
    simp only [dedupKeepLast]
    by_cases h : xs.any (fun y => decide (key y = key x)) = true
    · rw [if_pos h]
      exact ih
    · rw [if_neg h]
      refine List.pairwise_cons.mpr ⟨?_, ih⟩
      intro y hy hc
      apply absurd h
      simp only [ne_eq, Bool.not_eq_true, List.any_eq_false, decide_eq_false_iff_not,
        not_forall, not_not]
      exact ⟨y, (dedupKeepLast_sublist key xs).mem hy, hc.symm⟩

theorem sortedKeys_csvCombine {α : Type} (key : α → Key) (old new : List α) :
    SortedKeys key (csvCombine key old new) := by
  have hle : List.Pairwise (fun x y => rowLtBy key y x = false)
      (sortByLt (rowLtBy key) (old ++ new)) :=
    pairwise_sortByLt (rowLtBy key)
      (fun a b h => keyLt_asymm h)
      (fun a b c h => keyLt_cotrans h)
      (old ++ new)
  have hle' : List.Pairwise (fun x y => rowLtBy key y x = false)
      (dedupKeepLast key (sortByLt (rowLtBy key) (old ++ new))) :=
    List.Pairwise.sublist (dedupKeepLast_sublist key _) hle
  have hnd := nodupKeys_dedupKeepLast key (sortByLt (rowLtBy key) (old ++ new))
  refine List.Pairwise.imp₂ ?_ hle' hnd
  intro a b h1 h2
  by_cases hab : keyLt (key a) (key b) = true
  · exact hab
  · exact absurd (keyLt_conn (by simpa using hab) (by simpa [rowLtBy] using h1)) h2

/-- Two strictly key-sorted lists holding the same binding for every key
are equal. -/
theorem sortedKeys_ext {α : Type} (key : α → Key) :
    ∀ {l1 l2 : List α}, SortedKeys key l1 → SortedKeys key l2 →
      (∀ k, lastAssoc key l1 k = lastAssoc key l2 k) → l1 = l2 := by
  intro l1
  induction l1 with
  | nil =>
    intro l2 _ h2 hk
    cases l2 with
    | nil => rfl
    | cons b bs =>
      exfalso
      have hb := hk (key b)
      rcases List.pairwise_cons.mp h2 with ⟨hb2, _⟩
      have hfb : bs.filter (fun r => decide (key r = key b)) = [] := by
        rw [List.filter_eq_nil_iff]
        intro y hy
        have := hb2 y hy
        simp only [decide_eq_true_eq]
        intro hc
        rw [hc] at this
        rw [keyLt_irrefl] at this
        exact absurd this (by simp)
      rw [lastAssoc_cons_of_nil hfb, if_pos rfl] at hb
      simp [lastAssoc] at hb
  | cons a as ih =>
    intro l2 h1 h2 hk
    cases l2 with
    | nil =>
      exfalso
      have ha := hk (key a)
      rcases List.pairwise_cons.mp h1 with ⟨ha1, _⟩
      have hfa : as.filter (fun r => decide (key r = key a)) = [] := by
        rw [List.filter_eq_nil_iff]
        intro y hy
        have := ha1 y hy
        simp only [decide_eq_true_eq]
        intro hc
        rw [hc, keyLt_irrefl] at this
        exact absurd this (by simp)
      rw [lastAssoc_cons_of_nil hfa, if_pos rfl] at ha
      simp [lastAssoc] at ha
    | cons b bs =>
      rcases List.pairwise_cons.mp h1 with ⟨ha1, has⟩
      rcases List.pairwise_cons.mp h2 with ⟨hb2, hbs⟩
      have hfa : as.filter (fun r => decide (key r = key a)) = [] := by
        rw [List.filter_eq_nil_iff]
        intro y hy
        have := ha1 y hy
        simp only [decide_eq_true_eq]
        intro hc
        rw [hc, keyLt_irrefl] at this
        exact absurd this (by simp)
      have hfb : bs.filter (fun r => decide (key r = key b)) = [] := by
        rw [List.filter_eq_nil_iff]
        intro y hy
        have := hb2 y hy
        simp only [decide_eq_true_eq]
        intro hc
        rw [hc, keyLt_irrefl] at this
        exact absurd this (by simp)
      have hmema : a ∈ b :: bs := by
        have ha := hk (key a)
        rw [lastAssoc_cons_of_nil hfa, if_pos rfl] at ha
        exact List.mem_of_mem_filter (mem_of_getLast?_eq ha.symm)
      have hmemb : b ∈ a :: as := by
        have hb := (hk (key b)).symm
        rw [lastAssoc_cons_of_nil hfb, if_pos rfl] at hb
        exact List.mem_of_mem_filter (mem_of_getLast?_eq hb.symm)
      have hab : a = b := by
        rcases List.mem_cons.mp hmema with h | h
        · exact h
        rcases List.mem_cons.mp hmemb with h' | h'
        · exact h'.symm
        · exfalso
          have hba := hb2 a h
          have hab := ha1 b h'
          rw [keyLt_asymm hab] at hba
          exact absurd hba (by simp)
      subst hab
      have htails : ∀ k, lastAssoc key as k = lastAssoc key bs k := by
        intro k
        by_cases hx : key a = k
        · subst hx
          have e1 : lastAssoc key as (key a) = none := by simp [lastAssoc, hfa]
          have e2 : lastAssoc key bs (key a) = none := by simp [lastAssoc, hfb]
          rw [e1, e2]
        · have := hk k
          rwa [lastAssoc_cons_of_head_ne hx, lastAssoc_cons_of_head_ne hx] at this
      rw [ih has hbs htails]

theorem lastAssoc_append_of_nil {α : Type} {key : α → Key} {l1 l2 : List α} {k : Key}
    (hf : l2.filter (fun r => decide (key r = k)) = []) :
    lastAssoc key (l1 ++ l2) k = lastAssoc key l1 k := by
  simp only [lastAssoc, List.filter_append]
  rw [hf, List.append_nil]

theorem lastAssoc_append_of_ne {α : Type} {key : α → Key} {l1 l2 : List α} {k : Key}
    (hf : l2.filter (fun r => decide (key r = k)) ≠ []) :
    lastAssoc key (l1 ++ l2) k = lastAssoc key l2 k := by
  simp only [lastAssoc, List.filter_append]
  rw [List.getLast?_append_of_ne_nil _ hf]

theorem lastAssoc_csvCombine {α : Type} (key : α → Key) (old new : List α) (k : Key) :
    lastAssoc key (csvCombine key old new) k = lastAssoc key (old ++ new) k := by
  rw [csvCombine, lastAssoc_dedupKeepLast, lastAssoc_sortByLt]

/-- The flat-file upsert is idempotent: rewriting the file a second time
with the same new rows reproduces the same file. -/
theorem csvCombine_idem {α : Type} (key : α → Key) (old new : List α) :
    csvCombine key (csvCombine key old new) new = csvCombine key old new := by
  refine sortedKeys_ext key (sortedKeys_csvCombine key _ _) (sortedKeys_csvCombine key _ _)
    (fun k => ?_)
  rw [lastAssoc_csvCombine, lastAssoc_csvCombine]
  by_cases hf : new.filter (fun r => decide (key r = k)) = []
  · rw [lastAssoc_append_of_nil hf, lastAssoc_append_of_nil hf, lastAssoc_csvCombine,
      lastAssoc_append_of_nil hf]
  · rw [lastAssoc_append_of_ne hf, lastAssoc_append_of_ne hf]

theorem filter_key_insertReplace {α : Type} (key : α → Key) (r : α) (l : List α)
    (hl : SortedKeys key l) (k : Key) :
    (insertReplace key r l).filter (fun x => decide (key x = k)) =
      if key r = k then [r] else l.filter (fun x => decide (key x = k)) := by
  induction l with
  | nil =>
    simp only [insertReplace]
    by_cases hk : key r = k
    · rw [if_pos hk]
      simp [hk]
    · rw [if_neg hk]
      simp [hk]
  | cons x xs ih =>
    rcases List.pairwise_cons.mp hl with ⟨hx1, hxs⟩
    have hxs_gt : ∀ y ∈ xs, key y ≠ key x := by
      intro y hy hc
      have := hx1 y hy
      rw [hc, keyLt_irrefl] at this
      exact absurd this (by simp)
    simp only [insertReplace]
    by_cases h1 : key r = key x
    · rw [if_pos h1]
      by_cases hk : key r = k
      · rw [if_pos hk, List.filter_cons, if_pos (by simp [hk])]
        have : xs.filter (fun y => decide (key y = k)) = [] := by
          rw [List.filter_eq_nil_iff]
          intro y hy
          simp only [decide_eq_true_eq]
          intro hc
          exact hxs_gt y hy (by rw [hc, ← hk, h1])
        rw [this]
      · rw [if_neg hk, List.filter_cons, if_neg (by simp [hk]), List.filter_cons,
          if_neg (by simp [h1 ▸ hk])]
    · rw [if_neg h1]
      by_cases h2 : keyLt (key r) (key x) = true
      · rw [if_pos h2]
        by_cases hk : key r = k
        · have hxk : key x ≠ k := fun hc => h1 (hk.trans hc.symm)
          rw [if_pos hk, List.filter_cons, if_pos (by simp [hk]), List.filter_cons,
            if_neg (by simp [hxk])]
          have : xs.filter (fun y => decide (key y = k)) = [] := by
            rw [List.filter_eq_nil_iff]
            intro y hy
            simp only [decide_eq_true_eq]
            intro hc
            have hgt := hx1 y hy
            rw [hc, ← hk] at hgt
            rw [keyLt_asymm h2] at hgt
            exact absurd hgt (by simp)
          rw [this]
        · rw [if_neg hk, List.filter_cons, if_neg (by simp [hk])]
      · rw [if_neg h2, List.filter_cons, List.filter_cons, ih hxs]
        by_cases hk : key r = k
        · rw [if_pos hk, if_neg (by simp; exact fun hc => h1 (hk.trans hc.symm)), if_pos hk]
        · rw [if_neg hk, if_neg hk]

theorem mem_insertReplace {α : Type} (key : α → Key) (r : α) :
    ∀ {l : List α} {y : α}, y ∈ insertReplace key r l → y = r ∨ y ∈ l
  | [], y, h => by
    simp only [insertReplace, List.mem_singleton] at h
    exact Or.inl h
  | z :: zs, y, h => by
    simp only [insertReplace] at h
    by_cases hz1 : key r = key z
    · rw [if_pos hz1] at h
      rcases List.mem_cons.mp h with rfl | h
      · exact Or.inl rfl
      · exact Or.inr (List.mem_cons_of_mem z h)
    · rw [if_neg hz1] at h
      by_cases hz2 : keyLt (key r) (key z) = true
      · rw [if_pos hz2] at h
        rcases List.mem_cons.mp h with rfl | h
        · exact Or.inl rfl
        · exact Or.inr h
      · rw [if_neg hz2] at h
        rcases List.mem_cons.mp h with rfl | h
        · exact Or.inr (List.mem_cons_self y zs)
        · rcases mem_insertReplace key r h with h' | h'
          · exact Or.inl h'
          · exact Or.inr (List.mem_cons_of_mem z h')

theorem sortedKeys_insertReplace {α : Type} (key : α → Key) (r : α) (l : List α)
    (hl : SortedKeys key l) : SortedKeys key (insertReplace key r l) := by
  induction l with
  | nil => simp [insertReplace, SortedKeys]
  | cons x xs ih =>
    rcases List.pairwise_cons.mp hl with ⟨hx1, hxs⟩
    simp only [insertReplace]
    by_cases h1 : key r = key x
    · rw [if_pos h1]
      exact List.pairwise_cons.mpr ⟨fun y hy => h1 ▸ hx1 y hy, hxs⟩
    · rw [if_neg h1]
      by_cases h2 : keyLt (key r) (key x) = true
      · rw [if_pos h2]
        refine List.pairwise_cons.mpr ⟨?_, hl⟩
        intro y hy
        rcases List.mem_cons.mp hy with rfl | hy
        · exact h2
        · exact keyLt_trans h2 (hx1 y hy)
      · rw [if_neg h2]
        refine List.pairwise_cons.mpr ⟨?_, ih hxs⟩
        intro y hy
        rcases mem_insertReplace key r hy with rfl | hy'
        · by_cases hc : keyLt (key x) (key y) = true
          · exact hc
          · exact absurd (keyLt_conn (by simpa using h2) (by simpa using hc)) h1
        · exact hx1 y hy'

theorem sortedKeys_upsertList {α : Type} (key : α → Key) (rows : List α) :
    ∀ l : List α, SortedKeys key l → SortedKeys key (upsertList key rows l) := by
  induction rows with
  | nil => intro l hl; exact hl
  | cons r rs ih =>
    intro l hl
    exact ih (insertReplace key r l) (sortedKeys_insertReplace key r l hl)

theorem filter_key_upsertList {α : Type} (key : α → Key) (rows : List α) :
    ∀ (l : List α), SortedKeys key l → ∀ k,
      (upsertList key rows l).filter (fun x => decide (key x = k)) =
        (match lastAssoc key rows k with
          | some r => [r]
          | none => l.filter (fun x => decide (key x = k))) := by
  induction rows with
  | nil =>
    intro l _ k
    simp [upsertList, lastAssoc]
  | cons r rs ih =>
    intro l hl k
    have hstep : upsertList key (r :: rs) l = upsertList key rs (insertReplace key r l) := rfl
    rw [hstep, ih (insertReplace key r l) (sortedKeys_insertReplace key r l hl) k]
    by_cases hf : rs.filter (fun x => decide (key x = k)) = []
    · have hrs : lastAssoc key rs k = none := by simp [lastAssoc, hf]
      rw [hrs, lastAssoc_cons_of_nil hf, filter_key_insertReplace key r l hl k]
      by_cases hk : key r = k
      · rw [if_pos hk, if_pos hk]
      · rw [if_neg hk, if_neg hk]
    · obtain ⟨q, hq⟩ : ∃ q, lastAssoc key rs k = some q := by
        cases hc : lastAssoc key rs k with
        | none => exact absurd hc (getLast?_ne_none hf)
        | some q => exact ⟨q, rfl⟩
      rw [hq, lastAssoc_cons_of_ne hf, hq]

theorem lastAssoc_upsertList {α : Type} (key : α → Key) (rows l : List α)
    (hl : SortedKeys key l) (k : Key) :
    lastAssoc key (upsertList key rows l) k =
      (match lastAssoc key rows k with
        | some r => some r
        | none => lastAssoc key l k) := by
  have := filter_key_upsertList key rows l hl k
  rw [lastAssoc, this]
  cases lastAssoc key rows k with
  | none => rfl
  | some r => rfl

/-- SQL `INSERT OR REPLACE` is idempotent on a key-sorted table: running the
same batch twice leaves the table exactly as after the first run. -/
theorem upsertList_idem {α : Type} (key : α → Key) (rows l : List α)
    (hl : SortedKeys key l) :
    upsertList key rows (upsertList key rows l) = upsertList key rows l := by
  have h1 := sortedKeys_upsertList key rows l hl
  refine sortedKeys_ext key (sortedKeys_upsertList key rows _ h1) h1 (fun k => ?_)
  rw [lastAssoc_upsertList key rows _ h1 k, lastAssoc_upsertList key rows l hl k]
  cases hc : lastAssoc key rows k with
  | none => rfl
  | some r => rfl

/-! ## Data model (`src/app/data/models.py`) and settings
(`src/app/core/config.py`)

Floats are embedded as `ℚ`, UTC timestamps as `ℤ` seconds, Python `None`
and pandas `NaN` as `Option.none`.  The configured timezone is embedded
by its fixed UTC offset in seconds (the default `Asia/Jakarta` is a fixed
`+07:00` zone, 25200 seconds, with no daylight-saving transitions). -/

structure PriceRow where
  symbol : String
  ts_utc : ℤ
  open_px : ℚ
  high : ℚ
  low : ℚ
  close : ℚ
  volume : ℚ
deriving DecidableEq, Repr

structure IndicatorRow where
  symbol : String
  ts_utc : ℤ
  ma20 : Option ℚ
  ma50 : Option ℚ
  rsi14 : Option ℚ
  is_30d_high : ℤ
  signal : ℤ
  updated_at_utc : ℤ
deriving DecidableEq, Repr

/-- Tunables from `Settings` in `src/app/core/config.py`. -/
structure Settings where
  tzOffset : ℤ
  rsi_min : ℚ
  high_lookback : ℕ
  high_within_days : ℕ
deriving DecidableEq, Repr

/-- The defaults of `Settings`: `TZ=Asia/Jakarta` (UTC+7), `RSI_MIN=55`,
`HIGH_LOOKBACK=30`, `HIGH_WITHIN_DAYS=5`. -/
def defaultSettings : Settings :=
  { tzOffset := 25200, rsi_min := 55, high_lookback := 30, high_within_days := 5 }

def priceKey (r : PriceRow) : Key := (r.symbol, r.ts_utc)

def indKey (r : IndicatorRow) : Key := (r.symbol, r.ts_utc)

/-- Local calendar-day start (midnight) of a UTC timestamp, returned as a
UTC timestamp: `datetime.combine(local_dt.date(), datetime.min.time(), tz)`
converted back to UTC, for a fixed-offset zone. -/
def localDayStartUtc (cfg : Settings) (ts : ℤ) : ℤ :=
  ((ts + cfg.tzOffset).fdiv 86400) * 86400 - cfg.tzOffset

/-- UTC timestamp of `datetime.combine(target_date, datetime.max.time())`
in the configured zone, truncated to integer seconds: local 23:59:59 of
local day number `d`. -/
def endOfDayUtc (cfg : Settings) (d : ℤ) : ℤ :=
  d * 86400 + 86399 - cfg.tzOffset

/-- The `"%Y-%m-%d %H:%M"`-formatted local display timestamp, embedded as
the local time truncated to whole minutes. -/
def displayMin (cfg : Settings) (ts : ℤ) : ℤ :=
  (ts + cfg.tzOffset).fdiv 60

/-! ## Indicator engine (`src/app/services/indicators.py`) -/

def meanQ (l : List ℚ) : ℚ := l.sum / l.length

def maxQ (l : List ℚ) : ℚ :=
  match l with
  | [] => 0
  | x :: xs => xs.foldl max x

def maxZ (l : List ℤ) : ℤ :=
  match l with
  | [] => 0
  | x :: xs => xs.foldl max x

/-- The trailing window `series.rolling(window=n, min_periods=1)` sees at
index `i`: the last `min (i+1) n` observations up to and including `i`. -/
def windowAt {β : Type} (s : List β) (n i : ℕ) : List β :=
  (s.take (i + 1)).drop (i + 1 - n)

/-- Embeds `ma(series, n) = series.rolling(window=n, min_periods=1).mean()`. -/
def ma (s : List ℚ) (n : ℕ) : List ℚ :=
  (List.range s.length).map (fun i => meanQ (windowAt s n i))

/-- Embeds `rolling_high(series, n) = series.rolling(window=n, min_periods=1).max()`. -/
def rolling_high (s : List ℚ) (n : ℕ) : List ℚ :=
  (List.range s.length).map (fun i => maxQ (windowAt s n i))

/-- One step of `ewm(alpha, adjust=False).mean()`: a `NaN` input is
skipped, the first real observation seeds the average, and every later
observation `v` updates it to `(1 - alpha) * s + alpha * v`. -/
def ewmStep (alpha : ℚ) (st x : Option ℚ) : Option ℚ :=
  match x with
  | none => st
  | some v =>
    match st with
    | none => some v
    | some s => some ((1 - alpha) * s + alpha * v)

/-- Embeds `xs.ewm(alpha=alpha, adjust=False).mean()` for a series whose only
possible `NaN` is a leading run (the `series.diff()` output). -/
def ewmMean (alpha : ℚ) (xs : List (Option ℚ)) : List (Option ℚ) :=
  (xs.scanl (ewmStep alpha) none).tail

/-- Embeds `series.diff()`: `NaN` at index 0, then `s[i] - s[i-1]`. -/
def diffs (s : List ℚ) : List (Option ℚ) :=
  match s with
  | [] => []
  | _ :: _ => none :: List.zipWith (fun b a => some (b - a)) s.tail s

/-- Embeds `delta.clip(lower=0)`. -/
def gains (s : List ℚ) : List (Option ℚ) :=
  (diffs s).map (Option.map (fun d => max d 0))

/-- Embeds `-delta.clip(upper=0)`. -/
def losses (s : List ℚ) : List (Option ℚ) :=
  (diffs s).map (Option.map (fun d => max (-d) 0))

def avgGain (s : List ℚ) (n : ℕ) : List (Option ℚ) :=
  ewmMean (1 / n) (gains s)

def avgLoss (s : List ℚ) (n : ℕ) : List (Option ℚ) :=
  ewmMean (1 / n) (losses s)

/-- Embeds `avg_gain / avg_loss.replace(0, np.nan)`: `NaN` (`none`) whenever the
average loss is `NaN` or exactly zero, or the average gain is `NaN`. -/
def rsQuot (g l : Option ℚ) : Option ℚ :=
  match g, l with
  | some gv, some lv => if lv = 0 then none else some (gv / lv)
  | _, _ => none

/-- Embeds `rsi_wilder(series, n)`: `(100 - 100/(1+rs)).fillna(0)`. -/
def rsi_wilder (s : List ℚ) (n : ℕ) : List ℚ :=
  (List.zipWith rsQuot (avgGain s n) (avgLoss s n)).map
    (fun o =>
      match o with
      | none => 0
      | some r => 100 - 100 / (1 + r))

/-- Embeds `(close == rolling_high(close, lookback)).astype(int)`. -/
def isHighFlags (s : List ℚ) (lookback : ℕ) : List ℤ :=
  List.zipWith (fun c h => if c = h then (1 : ℤ) else 0) s (rolling_high s lookback)

/-- Embeds `is_high.rolling(window=k, min_periods=1).max()`. -/
def recentHigh (flags : List ℤ) (k : ℕ) : List ℤ :=
  (List.range flags.length).map (fun i => maxZ (windowAt flags k i))

/-- The `signal` boolean computed on the latest bar in
`compute_indicators` (`src/app/services/indicators.py`, lines 56-62).
The Python `latest_ma20 is not None` guards are vacuous there (the values
are floats) and drop out of the embedding. -/
def latestSignal (closes : List ℚ) (cfg : Settings) : Bool :=
  let lastClose := closes.getLast?.getD 0
  let m20 := (ma closes 20).getLast?.getD 0
  let m50 := (ma closes 50).getLast?.getD 0
  let r14 := (rsi_wilder closes 14).getLast?.getD 0
  let rh := (recentHigh (isHighFlags closes cfg.high_lookback) cfg.high_within_days).getLast?.getD 0
  decide (m20 < lastClose) && decide (m50 < lastClose) && decide (m50 < m20) &&
    decide (cfg.rsi_min ≤ r14) && decide (rh = 1)

/-- The body of the per-symbol loop in `compute_indicators`: the symbol's
rows of the sorted frame, its close series, and the emitted row keyed to
the group's latest bar. -/
def indicatorRowFor (sorted : List PriceRow) (cfg : Settings) (now : ℤ)
    (sym : String) : IndicatorRow :=
  let grp := sorted.filter (fun r => decide (r.symbol = sym))
  let closes := grp.map (fun r => r.close)
  { symbol := sym
    ts_utc := (grp.getLast?.map (fun r => r.ts_utc)).getD 0
    ma20 := (ma closes 20).getLast?
    ma50 := (ma closes 50).getLast?
    rsi14 := (rsi_wilder closes 14).getLast?
    is_30d_high := ((isHighFlags closes cfg.high_lookback).getLast?).getD 0
    signal := if latestSignal closes cfg then 1 else 0
    updated_at_utc := now }

/-- Embeds `compute_indicators(df_prices)`: sort by `(symbol, ts_utc)`, group by
symbol in order of first appearance, and emit one `IndicatorRow` per
symbol computed on that symbol's close series, keyed to its latest bar.
`now` is `int(datetime.now(timezone.utc).timestamp())`. -/
def compute_indicators (df : List PriceRow) (cfg : Settings) (now : ℤ) : List IndicatorRow :=
  match df with
  | [] => []
  | _ :: _ =>
    let sorted := sortByLt (rowLtBy priceKey) df
    ((sorted.map (fun r => r.symbol)).dedup).map (indicatorRowFor sorted cfg now)

/-! ## Query result rows

`get_latest_summary` returns dicts with these fields on both backends;
`get_symbol` returns price dicts left-joined with indicator fields, where
a missed join yields SQL `NULL` on the SQLite backend and pandas `NaN` on
the CSV backend, both embedded as `none`. -/

structure SummaryOut where
  symbol : String
  last_close : ℚ
  pct_change_1d : Option ℚ
  ma20 : Option ℚ
  ma50 : Option ℚ
  rsi14 : Option ℚ
  is_30d_high : Bool
  signal : Bool
  updated_min : ℤ
deriving DecidableEq, Repr

structure SymbolOut where
  symbol : String
  ts_utc : ℤ
  open_px : ℚ
  high : ℚ
  low : ℚ
  close : ℚ
  volume : ℚ
  ma20 : Option ℚ
  ma50 : Option ℚ
  rsi14 : Option ℚ
  is_30d_high : Option ℤ
  signal : Option ℤ
deriving DecidableEq, Repr

/-- One step of scanning for the row with maximal `ts`. -/
def argmaxStep {α : Type} (ts : α → ℤ) (acc : Option α) (r : α) : Option α :=
  match acc with
  | none => some r
  | some a => if ts a < ts r then some r else some a

/-- First row maximizing `ts` (SQL `MAX(ts_utc)` row selection; ties are
impossible under the key invariant). -/
def argmaxTs {α : Type} (ts : α → ℤ) (l : List α) : Option α :=
  l.foldl (argmaxStep ts) none

/-- Embeds `(latest - prior) / prior * 100`, `None` if there is no prior row or
its close is zero (Python truthiness of `prev_close`). -/
def pctChange (latestClose : ℚ) (prev : Option PriceRow) : Option ℚ :=
  match prev with
  | none => none
  | some q => if q.close = 0 then none else some ((latestClose - q.close) / q.close * 100)

/-! ## SQLite backend (`SQLiteRepository`)

The two tables are embedded as lists of rows, kept in canonical
`(symbol, ts_utc)` order; this order is unobservable because every query
sorts its output.

Modelled from the spec: `src/app/data/schema.sql` is loaded by
`SQLiteRepository.__init__` but is not part of the source tree; per the
spec (section 6) both tables are keyed by the composite primary key
`(symbol, ts_utc)`, which is what makes `INSERT OR REPLACE` behave as a
keyed upsert (`insertReplace`). -/

structure SqliteDB where
  prices : List PriceRow
  indicators : List IndicatorRow
deriving DecidableEq, Repr

def emptyDB : SqliteDB := { prices := [], indicators := [] }

def SqliteDB.upsert_prices (db : SqliteDB) (rows : List PriceRow) : SqliteDB :=
  { db with prices := upsertList priceKey rows db.prices }

def SqliteDB.upsert_indicators (db : SqliteDB) (rows : List IndicatorRow) : SqliteDB :=
  { db with indicators := upsertList indKey rows db.indicators }

/-- Embeds `SQLiteRepository.get_latest_summary` (repository.py lines 87-156):
per symbol, join the row at `MAX(ts_utc)` (≤ cutoff when a target date is
given) with the symbol's latest indicator row at or before the cutoff,
compute the 1-day percent change from the last row strictly before local
midnight of the selected row's local day, and order by symbol. -/
def SqliteDB.get_latest_summary (db : SqliteDB) (cfg : Settings) (asOf : Option ℤ) :
    List SummaryOut :=
  let endU := asOf.map (endOfDayUtc cfg)
  let inWindow : ℤ → Bool := fun t =>
    match endU with
    | some e => decide (t ≤ e)
    | none => true
  let pFilt := db.prices.filter (fun r => inWindow r.ts_utc)
  let syms := sortByLt strLt ((pFilt.map (fun r => r.symbol)).dedup)
  syms.filterMap (fun sym =>
    (argmaxTs (fun r => r.ts_utc) (pFilt.filter (fun r => decide (r.symbol = sym)))).map
      (fun p =>
        let li := argmaxTs (fun i => i.ts_utc)
          (db.indicators.filter (fun i => decide (i.symbol = sym) && inWindow i.ts_utc))
        let startU := localDayStartUtc cfg p.ts_utc
        let prev := argmaxTs (fun r => r.ts_utc)
          (db.prices.filter (fun r => decide (r.symbol = sym) && decide (r.ts_utc < startU)))
        { symbol := sym
          last_close := p.close
          pct_change_1d := pctChange p.close prev
          ma20 := li.bind (fun i => i.ma20)
          ma50 := li.bind (fun i => i.ma50)
          rsi14 := li.bind (fun i => i.rsi14)
          is_30d_high :=
            match li with
            | some i => decide (i.is_30d_high ≠ 0)
            | none => false
          signal :=
            match li with
            | some i => decide (i.signal ≠ 0)
            | none => false
          updated_min := displayMin cfg
            (match li with
              | some i => i.updated_at_utc
              | none => p.ts_utc) }))

/-- Embeds `SQLiteRepository.get_symbol` (repository.py lines 158-174): the most
recent `limit` price rows of the symbol in descending time order, each
left-joined with the indicator row at `MAX(ts_utc) ≤` the price row's
timestamp for the same symbol. -/
def SqliteDB.get_symbol (db : SqliteDB) (sym : String) (limit : ℕ) : List SymbolOut :=
  let rows := (sortByLt (fun a b => decide (b.ts_utc < a.ts_utc))
    (db.prices.filter (fun r => decide (r.symbol = sym)))).take limit
  rows.map (fun p =>
    let li := argmaxTs (fun i => i.ts_utc)
      (db.indicators.filter (fun i => decide (i.symbol = sym) && decide (i.ts_utc ≤ p.ts_utc)))
    { symbol := p.symbol, ts_utc := p.ts_utc, open_px := p.open_px, high := p.high
      low := p.low, close := p.close, volume := p.volume
      ma20 := li.bind (fun i => i.ma20)
      ma50 := li.bind (fun i => i.ma50)
      rsi14 := li.bind (fun i => i.rsi14)
      is_30d_high := li.map (fun i => i.is_30d_high)
      signal := li.map (fun i => i.signal) })

/-! ## CSV backend (`CSVRepository`)

A `none` file means the CSV does not exist yet (upserts with nonempty
input create it; queries short-circuit without it). -/

structure CsvStore where
  pricesFile : Option (List PriceRow)
  indicatorsFile : Option (List IndicatorRow)
deriving DecidableEq, Repr

def emptyCsv : CsvStore := { pricesFile := none, indicatorsFile := none }

/-- Embeds `CSVRepository.upsert_prices` (repository.py lines 199-208): no-op on
empty input, else read-concat-sort-dedup-rewrite. -/
def CsvStore.upsert_prices (st : CsvStore) (rows : List PriceRow) : CsvStore :=
  match rows with
  | [] => st
  | _ :: _ =>
    { st with pricesFile := some (csvCombine priceKey (st.pricesFile.getD []) rows) }

def CsvStore.upsert_indicators (st : CsvStore) (rows : List IndicatorRow) : CsvStore :=
  match rows with
  | [] => st
  | _ :: _ =>
    { st with indicatorsFile := some (csvCombine indKey (st.indicatorsFile.getD []) rows) }

/-- Embeds `CSVRepository.get_latest_summary` (repository.py lines 221-271).
Differences from the SQLite backend are embedded faithfully: indicators
are merged on exact `(symbol, ts_utc)` equality against each symbol's
latest indicator row; a missed merge leaves `NaN` in the indicator
columns, and Python's `bool(nan)` is `True`, so the boolean fields come
out `true` whenever the indicators file exists but the merge missed; the
display timestamp always uses the price row's timestamp. -/
def CsvStore.get_latest_summary (st : CsvStore) (cfg : Settings) (asOf : Option ℤ) :
    List SummaryOut :=
  match st.pricesFile with
  | none => []
  | some df0 =>
    match df0 with
    | [] => []
    | _ :: _ =>
      let sorted := sortByLt (rowLtBy priceKey) df0
      let endU := asOf.map (endOfDayUtc cfg)
      let inWindow : ℤ → Bool := fun t =>
        match endU with
        | some e => decide (t ≤ e)
        | none => true
      let dfP := sorted.filter (fun r => inWindow r.ts_utc)
      let syms := (dfP.map (fun r => r.symbol)).dedup
      syms.filterMap (fun sym =>
        ((dfP.filter (fun r => decide (r.symbol = sym))).getLast?).map (fun p =>
          let li : Option IndicatorRow :=
            match st.indicatorsFile with
            | none => none
            | some dfI0 =>
              let dfI := sortByLt (rowLtBy indKey)
                (dfI0.filter (fun i => inWindow i.ts_utc))
              ((dfI.filter (fun i => decide (i.symbol = sym))).getLast?).bind
                (fun i => if i.ts_utc = p.ts_utc then some i else none)
          let startU := localDayStartUtc cfg p.ts_utc
          let prev := (dfP.filter
            (fun r => decide (r.symbol = sym) && decide (r.ts_utc < startU))).getLast?
          { symbol := sym
            last_close := p.close
            pct_change_1d := pctChange p.close prev
            ma20 := li.bind (fun i => i.ma20)
            ma50 := li.bind (fun i => i.ma50)
            rsi14 := li.bind (fun i => i.rsi14)
            is_30d_high :=
              match st.indicatorsFile with
              | none => false
              | some _ =>
                match li with
                | some i => decide (i.is_30d_high ≠ 0)
                | none => true
            signal :=
              match st.indicatorsFile with
              | none => false
              | some _ =>
                match li with
                | some i => decide (i.signal ≠ 0)
                | none => true
            updated_min := displayMin cfg p.ts_utc }))

/-- Embeds `CSVRepository.get_symbol` (repository.py lines 273-284): the most
recent `limit` price rows in descending time order, merged with the
symbol's indicator rows on exact `(symbol, ts_utc)` equality. -/
def CsvStore.get_symbol (st : CsvStore) (sym : String) (limit : ℕ) : List SymbolOut :=
  match st.pricesFile with
  | none => []
  | some df0 =>
    let rows := (sortByLt (fun a b => decide (b.ts_utc < a.ts_utc))
      (df0.filter (fun r => decide (r.symbol = sym)))).take limit
    rows.map (fun p =>
      let li : Option IndicatorRow :=
        match st.indicatorsFile with
        | none => none
        | some dfI0 =>
          (dfI0.filter (fun i => decide (i.symbol = sym))).find?
            (fun i => decide (i.ts_utc = p.ts_utc))
      { symbol := p.symbol, ts_utc := p.ts_utc, open_px := p.open_px, high := p.high
        low := p.low, close := p.close, volume := p.volume
        ma20 := li.bind (fun i => i.ma20)
        ma50 := li.bind (fun i => i.ma50)
        rsi14 := li.bind (fun i => i.rsi14)
        is_30d_high := li.map (fun i => i.is_30d_high)
        signal := li.map (fun i => i.signal) })

/-! ## Engine lemmas -/

theorem length_ma (s : List ℚ) (n : ℕ) : (ma s n).length = s.length := by
  simp [ma]

theorem length_diffs (s : List ℚ) : (diffs s).length = s.length := by
  cases s with
  | nil => rfl
  | cons c cs => simp [diffs]

theorem length_gains (s : List ℚ) : (gains s).length = s.length := by
  simp [gains, length_diffs]

theorem length_losses (s : List ℚ) : (losses s).length = s.length := by
  simp [losses, length_diffs]

theorem length_ewmMean (alpha : ℚ) (xs : List (Option ℚ)) :
    (ewmMean alpha xs).length = xs.length := by
  simp [ewmMean, List.length_scanl]

theorem length_avgGain (s : List ℚ) (n : ℕ) : (avgGain s n).length = s.length := by
  simp [avgGain, length_ewmMean, length_gains]

theorem length_avgLoss (s : List ℚ) (n : ℕ) : (avgLoss s n).length = s.length := by
  simp [avgLoss, length_ewmMean, length_losses]

theorem length_rsi_wilder (s : List ℚ) (n : ℕ) : (rsi_wilder s n).length = s.length := by
  simp [rsi_wilder, length_avgGain, length_avgLoss]

theorem length_isHighFlags (s : List ℚ) (n : ℕ) : (isHighFlags s n).length = s.length := by
  simp [isHighFlags, rolling_high]

/-- The moving average at index `i` exists and is the sum of the trailing
window divided by the number of observations it holds. -/
theorem ma_getElem (s : List ℚ) (n i : ℕ) (hi : i < s.length) :
    (ma s n)[i]? = some ((windowAt s n i).sum / ((min (i + 1) n : ℕ) : ℚ)) := by
  have hlen : (windowAt s n i).length = min (i + 1) n := by
    simp only [windowAt, List.length_drop, List.length_take]
    omega
  have h1 : (ma s n)[i]? = some (meanQ (windowAt s n i)) := by
    rw [ma, List.getElem?_map, List.getElem?_range hi]
    rfl
  rw [h1, meanQ, hlen]

theorem rsQuot_loss_zero (g : Option ℚ) : rsQuot g (some 0) = none := by
  cases g <;> simp [rsQuot]

theorem rsQuot_loss_none (g : Option ℚ) : rsQuot g none = none := by
  cases g <;> simp [rsQuot]

/-- Smoothing a series of zeros and leading `NaN`s only ever produces
zeros and `NaN`s. -/
theorem ewm_scanl_zero (alpha : ℚ) :
    ∀ (xs : List (Option ℚ)) (st : Option ℚ),
      (st = none ∨ st = some 0) → (∀ y ∈ xs, y = none ∨ y = some 0) →
      ∀ x ∈ xs.scanl (ewmStep alpha) st, x = none ∨ x = some 0
  | [], st, hst, _, x, hx => by
    simp only [List.scanl, List.mem_singleton] at hx
    exact hx ▸ hst
  | y :: ys, st, hst, hys, x, hx => by
    rw [List.scanl] at hx
    rcases List.mem_cons.mp hx with rfl | hx
    · exact hst
    · refine ewm_scanl_zero alpha ys (ewmStep alpha st y) ?_ ?_ x hx
      · rcases hys y (List.mem_cons_self y ys) with rfl | rfl
        · simpa [ewmStep] using hst
        · rcases hst with rfl | rfl
          · simp [ewmStep]
          · right
            simp [ewmStep]
      · intro z hz
        exact hys z (List.mem_cons_of_mem y hz)

theorem ewmMean_zero_mem (alpha : ℚ) (xs : List (Option ℚ))
    (hxs : ∀ y ∈ xs, y = none ∨ y = some 0) :
    ∀ x ∈ ewmMean alpha xs, x = none ∨ x = some 0 := by
  intro x hx
  exact ewm_scanl_zero alpha xs none (Or.inl rfl) hxs x (List.mem_of_mem_tail hx)

theorem diffs_chain_nonneg :
    ∀ (c : ℚ) (cs : List ℚ), List.Chain' (· ≤ ·) (c :: cs) →
      ∀ d ∈ List.zipWith (fun b a => some (b - a)) cs (c :: cs), ∃ v, d = some v ∧ 0 ≤ v
  | _, [], _, d, hd => by simp at hd
  | c, b :: bs, h, d, hd => by
    rcases List.chain'_cons.mp h with ⟨hcb, htail⟩
    rcases List.mem_cons.mp hd with rfl | hd
    · exact ⟨b - c, rfl, by linarith⟩
    · exact diffs_chain_nonneg b bs htail d hd

/-- On a non-decreasing close series every day-over-day loss is zero. -/
theorem losses_chain_zero (s : List ℚ) (hs : List.Chain' (· ≤ ·) s) :
    ∀ y ∈ losses s, y = none ∨ y = some 0 := by
  intro y hy
  rcases s with - | ⟨c, cs⟩
  · simp [losses, diffs] at hy
  · simp only [losses, diffs, List.map_cons, List.mem_cons] at hy
    rcases hy with rfl | hy
    · exact Or.inl rfl
    · right
      rw [List.mem_map] at hy
      obtain ⟨d, hd, rfl⟩ := hy
      obtain ⟨v, rfl, hv⟩ := diffs_chain_nonneg c cs hs d hd
      show some (max (-v) 0) = some 0
      rw [max_eq_right (by linarith)]

theorem rsi_getElem_formula (s : List ℚ) (n i : ℕ) (g l : ℚ)
    (hg : (avgGain s n)[i]? = some (some g)) (hl : (avgLoss s n)[i]? = some (some l))
    (hlz : l ≠ 0) :
    (rsi_wilder s n)[i]? = some (100 - 100 / (1 + g / l)) := by
  rw [rsi_wilder, List.getElem?_map, List.getElem?_zipWith, hg, hl]
  simp [rsQuot, hlz]

theorem rsi_last_zero_aux (s : List ℚ) (hs : s ≠ []) (v : Option ℚ)
    (hv : (avgLoss s 14).getLast? = some v) (hz : v = none ∨ v = some 0) :
    (rsi_wilder s 14).getLast? = some 0 := by
  have hm : 0 < s.length := List.length_pos.mpr hs
  have hal : (avgLoss s 14)[s.length - 1]? = some v := by
    rw [← hv, List.getLast?_eq_getElem?, length_avgLoss]
  have hig : s.length - 1 < (avgGain s 14).length := by
    rw [length_avgGain]
    omega
  have hag : (avgGain s 14)[s.length - 1]? = some ((avgGain s 14)[s.length - 1]) :=
    List.getElem?_eq_getElem hig
  rw [List.getLast?_eq_getElem?, length_rsi_wilder, rsi_wilder, List.getElem?_map,
    List.getElem?_zipWith, hag, hal]
  rcases hz with rfl | rfl
  · simp [rsQuot_loss_none]
  · simp [rsQuot_loss_zero]

/-- C4: `rsi_wilder` computes day-over-day deltas split into gains and
losses, smooths both exponentially with `alpha = 1/14` from the first
observation, and wherever the smoothed average loss is a nonzero real
returns `100 - 100/(1 + RS)` with `RS = avgGain/avgLoss`; whenever the
smoothed average loss at the final index is exactly zero (in particular
on any non-decreasing close series) the emitted `rsi14` is `0`, not
`100`, because the `NaN` produced by `replace(0, nan)` is filled with
`0`. -/
theorem C4_rsi_policy (s : List ℚ) (hs : s ≠ []) :
    (∀ (i : ℕ) (g l : ℚ), (avgGain s 14)[i]? = some (some g) →
        (avgLoss s 14)[i]? = some (some l) →
        l ≠ 0 → (rsi_wilder s 14)[i]? = some (100 - 100 / (1 + g / l)))
    ∧ ((avgLoss s 14).getLast? = some (some 0) → (rsi_wilder s 14).getLast? = some 0)
    ∧ (List.Chain' (· ≤ ·) s → (rsi_wilder s 14).getLast? = some 0) := by
  refine ⟨fun i g l hg hl hlz => rsi_getElem_formula s 14 i g l hg hl hlz, ?_, ?_⟩
  · intro hv
    exact rsi_last_zero_aux s hs (some 0) hv (Or.inr rfl)
  · intro hchain
    have hlen : 0 < (avgLoss s 14).length := by
      rw [length_avgLoss]
      exact List.length_pos.mpr hs
    obtain ⟨v, hv⟩ : ∃ v, (avgLoss s 14).getLast? = some v := by
      cases hc : (avgLoss s 14).getLast? with
      | none =>
        exact absurd hc (getLast?_ne_none (by
          intro hnil
          rw [hnil] at hlen
          simp at hlen))
      | some v => exact ⟨v, rfl⟩
    have hmem := mem_of_getLast?_eq hv
    have hz := ewmMean_zero_mem (1 / (14 : ℕ)) (losses s) (losses_chain_zero s hchain) v hmem
    exact rsi_last_zero_aux s hs v hv hz

theorem rangeMap_getLast {β : Type} (f : ℕ → β) (n : ℕ) (hn : 0 < n) :
    ((List.range n).map f).getLast? = some (f (n - 1)) := by
  rw [List.getLast?_eq_getElem?, List.length_map, List.length_range, List.getElem?_map,
    List.getElem?_range (by omega)]
  rfl

theorem foldl_max_spec (xs : List ℤ) :
    ∀ a : ℤ, a ≤ xs.foldl max a ∧ (∀ x ∈ xs, x ≤ xs.foldl max a) ∧
      (xs.foldl max a = a ∨ xs.foldl max a ∈ xs) := by
  induction xs with
  | nil => intro a; exact ⟨le_refl a, by simp, Or.inl rfl⟩
  | cons x xs ih =>
    intro a
    obtain ⟨h1, h2, h3⟩ := ih (max a x)
    refine ⟨le_trans (le_max_left a x) h1, ?_, ?_⟩
    · intro y hy
      rcases List.mem_cons.mp hy with rfl | hy
      · exact le_trans (le_max_right a y) h1
      · exact h2 y hy
    · rcases h3 with h3 | h3
      · rcases max_choice a x with hc | hc
        · rw [List.foldl_cons, h3, hc]
          exact Or.inl rfl
        · rw [List.foldl_cons, h3, hc]
          exact Or.inr (List.mem_cons_self x xs)
      · exact Or.inr (List.mem_cons_of_mem x h3)

theorem maxZ_eq_one_iff (w : List ℤ) (h01 : ∀ x ∈ w, x = 0 ∨ x = 1) :
    maxZ w = 1 ↔ (1 : ℤ) ∈ w := by
  cases w with
  | nil => simp [maxZ]
  | cons x xs =>
    obtain ⟨h1, h2, h3⟩ := foldl_max_spec xs x
    constructor
    · intro hmax
      rw [maxZ] at hmax
      rcases h3 with h3 | h3
      · have hx1 : x = 1 := by rw [← h3, hmax]
        rw [hx1] at hmax ⊢
        exact List.mem_cons_self 1 xs
      · rw [hmax] at h3
        exact List.mem_cons_of_mem x h3
    · intro hone
      rw [maxZ]
      have hub : (1 : ℤ) ≤ xs.foldl max x := by
        rcases List.mem_cons.mp hone with rfl | hone
        · exact h1
        · exact h2 1 hone
      have h01f : xs.foldl max x = 0 ∨ xs.foldl max x = 1 := by
        rcases h3 with hm | hm
        · rw [hm]
          exact h01 x (List.mem_cons_self x xs)
        · exact h01 _ (List.mem_cons_of_mem x hm)
      omega

theorem mem_isHighFlags_01 (s : List ℚ) (n : ℕ) :
    ∀ x ∈ isHighFlags s n, x = 0 ∨ x = 1 := by
  intro x hx
  rw [isHighFlags] at hx
  obtain ⟨i, hi⟩ := List.mem_iff_getElem?.mp hx
  rw [List.getElem?_zipWith] at hi
  cases hcs : s[i]? with
  | none => rw [hcs] at hi; simp at hi
  | some c =>
    cases hch : (rolling_high s n)[i]? with
    | none => rw [hcs, hch] at hi; simp at hi
    | some h =>
      rw [hcs, hch] at hi
      simp only [Option.some.injEq] at hi
      by_cases hc : c = h
      · right
        rw [← hi, if_pos hc]
      · left
        rw [← hi, if_neg hc]

theorem mem_windowAt {β : Type} {s : List β} {n i : ℕ} :
    ∀ x ∈ windowAt s n i, x ∈ s := by
  intro x hx
  rw [windowAt] at hx
  exact (List.take_sublist (i + 1) s).mem ((List.drop_sublist _ _).mem hx)

/-- Elements of the group a symbol contributes to `compute_indicators`. -/
theorem grp_ne_nil {sorted : List PriceRow} {sym : String}
    (h : sym ∈ (sorted.map (fun r => r.symbol)).dedup) :
    sorted.filter (fun r => decide (r.symbol = sym)) ≠ [] := by
  rw [List.mem_dedup, List.mem_map] at h
  obtain ⟨q, hq, hqs⟩ := h
  intro hnil
  have := List.filter_eq_nil_iff.mp hnil q hq
  simp [hqs] at this

theorem pairwise_getLast {α : Type} {R : α → α → Prop} :
    ∀ {l : List α} {q : α}, List.Pairwise R l → l.getLast? = some q →
      ∀ x ∈ l, x = q ∨ R x q
  | [], q, _, hq, x, hx => by simp at hx
  | [y], q, _, hq, x, hx => by
    simp only [List.getLast?_singleton, Option.some.injEq] at hq
    rcases List.mem_singleton.mp hx with rfl
    exact Or.inl hq
  | y :: z :: zs, q, hp, hq, x, hx => by
    rw [List.getLast?_cons_cons] at hq
    rcases List.pairwise_cons.mp hp with ⟨hy, hzs⟩
    rcases List.mem_cons.mp hx with rfl | hx
    · right
      have hqmem : q ∈ z :: zs := mem_of_getLast?_eq hq
      exact hy q hqmem
    · exact pairwise_getLast hzs hq x hx

/-- Within one symbol's group of the sorted frame, timestamps ascend. -/
theorem grp_pairwise_ts (df : List PriceRow) (sym : String) :
    List.Pairwise (fun a b => a.ts_utc ≤ b.ts_utc)
      ((sortByLt (rowLtBy priceKey) df).filter (fun r => decide (r.symbol = sym))) := by
  have hs := pairwise_sortByLt (rowLtBy priceKey)
    (fun a b h => keyLt_asymm h) (fun a b c h => keyLt_cotrans h) df
  have hf := hs.filter (fun r => decide (r.symbol = sym))
  refine hf.imp_of_mem ?_
  intro a b ha hb hab
  have hsa : a.symbol = sym := by simpa using (List.mem_filter.mp ha).2
  have hsb : b.symbol = sym := by simpa using (List.mem_filter.mp hb).2
  simp only [rowLtBy, keyLt, priceKey, Bool.or_eq_false_iff, Bool.and_eq_false_iff] at hab
  obtain ⟨-, hab2⟩ := hab
  rcases hab2 with h | h
  · simp only [decide_eq_false_iff_not] at h
    exact absurd (hsb.trans hsa.symm) h
  · simp only [decide_eq_false_iff_not, not_lt] at h
    exact h

theorem C4_rsi_policy_witness :
    ([(1 : ℚ), 2, 3] ≠ []) ∧ List.Chain' (· ≤ ·) [(1 : ℚ), 2, 3] ∧
      (rsi_wilder [(1 : ℚ), 2, 3] 14).getLast? = some 0 :=
  ⟨by simp, by norm_num [List.chain'_cons],
    (C4_rsi_policy [(1 : ℚ), 2, 3] (by simp)).2.2 (by norm_num [List.chain'_cons])⟩

/-- C7: the moving average uses a partial-window policy: at every index
the value is the mean of however many observations exist so far, up to
`n`; and on `close = [1,2,3,4,5]` with window 3 it yields
`[1.0, 1.5, 2.0, 3.0, 4.0]`. -/
theorem C7_ma_partial_window (s : List ℚ) (n i : ℕ) (_hn : 0 < n) (hi : i < s.length) :
    (ma s n)[i]? = some (((s.take (i + 1)).drop (i + 1 - n)).sum / ((min (i + 1) n : ℕ) : ℚ))
    ∧ ma [1, 2, 3, 4, 5] 3 = [1, 3/2, 2, 3, 4] := by
  constructor
  · exact ma_getElem s n i hi
  · simp [ma, meanQ, windowAt, List.range_succ]
    norm_num

theorem C7_ma_partial_window_witness :
    (0 < 3 ∧ 2 < ([(1 : ℚ), 2, 3, 4, 5]).length) ∧
      ((ma [(1 : ℚ), 2, 3, 4, 5] 3)[2]? =
          some (((([(1 : ℚ), 2, 3, 4, 5]).take (2 + 1)).drop (2 + 1 - 3)).sum /
            ((min (2 + 1) 3 : ℕ) : ℚ))
        ∧ ma [1, 2, 3, 4, 5] 3 = [1, 3/2, 2, 3, 4]) :=
  ⟨⟨by norm_num, by norm_num⟩,
    C7_ma_partial_window [1, 2, 3, 4, 5] 3 2 (by norm_num) (by norm_num)⟩

theorem compute_indicators_ne_nil (df : List PriceRow) (hdf : df ≠ [])
    (cfg : Settings) (now : ℤ) :
    compute_indicators df cfg now =
      ((sortByLt (rowLtBy priceKey) df).map (fun r => r.symbol)).dedup.map
        (indicatorRowFor (sortByLt (rowLtBy priceKey) df) cfg now) := by
  cases df with
  | nil => exact absurd rfl hdf
  | cons d ds => rfl

theorem map_symbol_compute_indicators (df : List PriceRow) (hdf : df ≠ [])
    (cfg : Settings) (now : ℤ) :
    (compute_indicators df cfg now).map (fun r => r.symbol) =
      ((sortByLt (rowLtBy priceKey) df).map (fun r => r.symbol)).dedup := by
  rw [compute_indicators_ne_nil df hdf, List.map_map]
  have h1 : ((sortByLt (rowLtBy priceKey) df).map (fun r => r.symbol)).dedup.map
      ((fun r => r.symbol) ∘ indicatorRowFor (sortByLt (rowLtBy priceKey) df) cfg now) =
      ((sortByLt (rowLtBy priceKey) df).map (fun r => r.symbol)).dedup.map id :=
    List.map_congr_left (fun a _ => rfl)
  rw [h1, List.map_id]

/-- C9: `compute_indicators` emits exactly one row per distinct symbol of
the input, and every emitted row's `ts_utc` is a price timestamp present
in the input for that symbol — specifically the maximum one. -/
theorem C9_one_row_per_symbol (df : List PriceRow) (cfg : Settings) (now : ℤ)
    (hdf : df ≠ []) :
    ((compute_indicators df cfg now).map (fun r => r.symbol)).Nodup
    ∧ (∀ sym, sym ∈ (compute_indicators df cfg now).map (fun r => r.symbol) ↔
        sym ∈ df.map (fun p => p.symbol))
    ∧ ∀ r ∈ compute_indicators df cfg now,
        (∃ p ∈ df, p.symbol = r.symbol ∧ p.ts_utc = r.ts_utc)
        ∧ ∀ p ∈ df, p.symbol = r.symbol → p.ts_utc ≤ r.ts_utc := by
  have hmap := map_symbol_compute_indicators df hdf cfg now
  have hperm : ((sortByLt (rowLtBy priceKey) df).map (fun r => r.symbol)).Perm
      (df.map (fun r => r.symbol)) := (sortByLt_perm (rowLtBy priceKey) df).map _
  refine ⟨?_, ?_, ?_⟩
  · rw [hmap]
    exact List.nodup_dedup _
  · intro sym
    rw [hmap, List.mem_dedup, hperm.mem_iff]
  · intro r hr
    rw [compute_indicators_ne_nil df hdf] at hr
    obtain ⟨sym, hsym, rfl⟩ := List.mem_map.mp hr
    set sorted := sortByLt (rowLtBy priceKey) df with hsorted
    set grp := sorted.filter (fun q => decide (q.symbol = sym)) with hgrp
    have hne : grp ≠ [] := grp_ne_nil hsym
    obtain ⟨q, hgl⟩ : ∃ q, grp.getLast? = some q := by
      cases hc : grp.getLast? with
      | none => exact absurd hc (getLast?_ne_none hne)
      | some q => exact ⟨q, rfl⟩
    have hqmem : q ∈ grp := mem_of_getLast?_eq hgl
    have hqsym : q.symbol = sym := by
      simpa using (List.mem_filter.mp hqmem).2
    have hqdf : q ∈ df := by
      rw [← (sortByLt_perm (rowLtBy priceKey) df).mem_iff]
      exact List.mem_of_mem_filter hqmem
    have hts : (indicatorRowFor sorted cfg now sym).ts_utc = q.ts_utc := by
      simp [indicatorRowFor, ← hgrp, hgl]
    constructor
    · exact ⟨q, hqdf, by simpa [indicatorRowFor] using hqsym, by rw [hts]⟩
    · intro p hp hpsym
      have hpsorted : p ∈ sorted := by
        rw [(sortByLt_perm (rowLtBy priceKey) df).mem_iff]
        exact hp
      have hpgrp : p ∈ grp := by
        rw [hgrp]
        refine List.mem_filter.mpr ⟨hpsorted, ?_⟩
        simpa [indicatorRowFor] using hpsym
      rw [hts]
      rcases pairwise_getLast (hgrp ▸ grp_pairwise_ts df sym) hgl p hpgrp with rfl | hle
      · exact le_refl _
      · exact hle

/-- C10: the indicator engine never emits a null `ma20`, `ma50` or
`rsi14` for a symbol that has at least one price row: the partial-window
moving average and the `fillna(0)` RSI fallback always produce a value;
a one-point series yields `ma20 = ma50 = close` and `rsi14 = 0`. -/
theorem C10_no_null_indicator_fields (df : List PriceRow) (cfg : Settings) (now : ℤ)
    (r : IndicatorRow) (hr : r ∈ compute_indicators df cfg now) :
    r.ma20.isSome ∧ r.ma50.isSome ∧ r.rsi14.isSome
    ∧ ∀ p : PriceRow,
        (compute_indicators [p] cfg now).map (fun o => (o.ma20, o.ma50, o.rsi14)) =
          [(some p.close, some p.close, some 0)] := by
  have hdf : df ≠ [] := by
    intro hnil
    rw [hnil] at hr
    simp [compute_indicators] at hr
  rw [compute_indicators_ne_nil df hdf] at hr
  obtain ⟨sym, hsym, rfl⟩ := List.mem_map.mp hr
  set sorted := sortByLt (rowLtBy priceKey) df with hsorted
  set grp := sorted.filter (fun q => decide (q.symbol = sym)) with hgrp
  have hne : grp ≠ [] := grp_ne_nil hsym
  have hclen : 0 < (grp.map (fun q => q.close)).length := by
    rw [List.length_map]
    exact List.length_pos.mpr hne
  have hsome : ∀ m : ℕ, ((ma (grp.map (fun q => q.close)) m).getLast?).isSome := by
    intro m
    rw [Option.isSome_iff_ne_none]
    refine getLast?_ne_none ?_
    intro hnil
    have hlen := congrArg List.length hnil
    rw [length_ma, List.length_map, List.length_nil] at hlen
    exact hne (List.length_eq_zero.mp hlen)
  have hrsis : ((rsi_wilder (grp.map (fun q => q.close)) 14).getLast?).isSome := by
    rw [Option.isSome_iff_ne_none]
    refine getLast?_ne_none ?_
    intro hnil
    have hlen := congrArg List.length hnil
    rw [length_rsi_wilder, List.length_map, List.length_nil] at hlen
    exact hne (List.length_eq_zero.mp hlen)
  refine ⟨by simpa [indicatorRowFor, ← hgrp] using hsome 20,
    by simpa [indicatorRowFor, ← hgrp] using hsome 50,
    by simpa [indicatorRowFor, ← hgrp] using hrsis, ?_⟩
  intro p
  simp [compute_indicators, sortByLt, insertByLt, indicatorRowFor, ma, meanQ, windowAt,
    rsi_wilder, avgGain, avgLoss, ewmMean, gains, losses, diffs, ewmStep, rsQuot,
    List.scanl, List.range_succ]

/-- The close series `compute_indicators` derives for one symbol: that
symbol's rows of the `(symbol, ts_utc)`-sorted frame, in time order. -/
def symbolCloses (df : List PriceRow) (sym : String) : List ℚ :=
  ((sortByLt (rowLtBy priceKey) df).filter (fun q => decide (q.symbol = sym))).map
    (fun q => q.close)

theorem recentHigh_last_eq_one_iff (closes : List ℚ) (hc : closes ≠ [])
    (lookback k : ℕ) :
    ((recentHigh (isHighFlags closes lookback) k).getLast?.getD 0 = 1)
      ↔ (1 : ℤ) ∈ windowAt (isHighFlags closes lookback) k (closes.length - 1) := by
  have hm : (isHighFlags closes lookback).length = closes.length :=
    length_isHighFlags closes lookback
  have hpos : 0 < (isHighFlags closes lookback).length := by
    rw [hm]
    exact List.length_pos.mpr hc
  rw [recentHigh, rangeMap_getLast _ _ hpos]
  simp only [Option.getD_some]
  rw [hm]
  exact maxZ_eq_one_iff _
    (fun x hx => mem_isHighFlags_01 closes lookback x (mem_windowAt x hx))

/-- C5: the emitted `signal` is 1 iff on the latest bar all five
conditions hold: close above both moving averages, `ma20 > ma50`,
`rsi14 >= rsiMin`, and the 30-day-high flag was 1 at least once within
the trailing `highWithinDays` observations; the configured defaults are
`rsiMin = 55` and `highWithinDays = 5`. -/
theorem C5_signal_conditions (df : List PriceRow) (cfg : Settings) (now : ℤ)
    (r : IndicatorRow) (hr : r ∈ compute_indicators df cfg now) :
    (r.signal = 1 ↔
      ((ma (symbolCloses df r.symbol) 20).getLast?.getD 0 <
          (symbolCloses df r.symbol).getLast?.getD 0
       ∧ (ma (symbolCloses df r.symbol) 50).getLast?.getD 0 <
          (symbolCloses df r.symbol).getLast?.getD 0
       ∧ (ma (symbolCloses df r.symbol) 50).getLast?.getD 0 <
          (ma (symbolCloses df r.symbol) 20).getLast?.getD 0
       ∧ cfg.rsi_min ≤ (rsi_wilder (symbolCloses df r.symbol) 14).getLast?.getD 0
       ∧ (1 : ℤ) ∈ windowAt (isHighFlags (symbolCloses df r.symbol) cfg.high_lookback)
            cfg.high_within_days ((symbolCloses df r.symbol).length - 1)))
    ∧ defaultSettings.rsi_min = 55 ∧ defaultSettings.high_within_days = 5 := by
  refine ⟨?_, rfl, rfl⟩
  have hdf : df ≠ [] := by
    intro hnil
    rw [hnil] at hr
    simp [compute_indicators] at hr
  rw [compute_indicators_ne_nil df hdf] at hr
  obtain ⟨sym, hsym, rfl⟩ := List.mem_map.mp hr
  have hrsym : (indicatorRowFor (sortByLt (rowLtBy priceKey) df) cfg now sym).symbol = sym :=
    rfl
  rw [hrsym]
  have hclo : symbolCloses df sym =
      ((sortByLt (rowLtBy priceKey) df).filter (fun q => decide (q.symbol = sym))).map
        (fun q => q.close) := rfl
  have hne : ((sortByLt (rowLtBy priceKey) df).filter
      (fun q => decide (q.symbol = sym))) ≠ [] := grp_ne_nil hsym
  have hcne : symbolCloses df sym ≠ [] := by
    rw [hclo]
    intro hnil
    exact hne (List.map_eq_nil_iff.mp hnil)
  have hsig : (indicatorRowFor (sortByLt (rowLtBy priceKey) df) cfg now sym).signal =
      if latestSignal (symbolCloses df sym) cfg then 1 else 0 := rfl
  rw [hsig]
  have hone : (if latestSignal (symbolCloses df sym) cfg then (1 : ℤ) else 0) = 1 ↔
      latestSignal (symbolCloses df sym) cfg = true := by
    by_cases hb : latestSignal (symbolCloses df sym) cfg = true
    · simp [hb]
    · simp only [Bool.not_eq_true] at hb
      simp [hb]
  rw [hone, latestSignal]
  simp only [Bool.and_eq_true, decide_eq_true_eq]
  rw [recentHigh_last_eq_one_iff (symbolCloses df sym) hcne]
  constructor
  · rintro ⟨⟨⟨⟨h1, h2⟩, h3⟩, h4⟩, h5⟩
    exact ⟨h1, h2, h3, h4, h5⟩
  · rintro ⟨h1, h2, h3, h4, h5⟩
    exact ⟨⟨⟨⟨h1, h2⟩, h3⟩, h4⟩, h5⟩

/-! ## Concrete fixtures for witnesses and counterexamples -/

def exPrice : PriceRow :=
  { symbol := "AAA", ts_utc := 100, open_px := 10, high := 10, low := 10, close := 10,
    volume := 5 }

def exInd : IndicatorRow :=
  { symbol := "AAA", ts_utc := 50, ma20 := some 1, ma50 := some 2, rsi14 := some 50,
    is_30d_high := 1, signal := 0, updated_at_utc := 50 }

def exIndB : IndicatorRow :=
  { symbol := "BBB", ts_utc := 100, ma20 := some 1, ma50 := some 2, rsi14 := some 50,
    is_30d_high := 1, signal := 1, updated_at_utc := 100 }

/-- The row `compute_indicators [exPrice] defaultSettings 0` emits. -/
def exOut : IndicatorRow :=
  { symbol := "AAA", ts_utc := 100, ma20 := some 10, ma50 := some 10, rsi14 := some 0,
    is_30d_high := 1, signal := 0, updated_at_utc := 0 }

theorem compute_indicators_exPrice :
    compute_indicators [exPrice] defaultSettings 0 = [exOut] := by
  simp [compute_indicators, sortByLt, insertByLt, indicatorRowFor, ma, meanQ, windowAt,
    rsi_wilder, avgGain, avgLoss, ewmMean, gains, losses, diffs, ewmStep, rsQuot,
    List.scanl, List.range_succ, exPrice, exOut, isHighFlags, rolling_high, maxQ,
    latestSignal, recentHigh, maxZ, defaultSettings]

theorem exOut_mem : exOut ∈ compute_indicators [exPrice] defaultSettings 0 := by
  rw [compute_indicators_exPrice]
  exact List.mem_singleton.mpr rfl

theorem C9_one_row_per_symbol_witness :
    ([exPrice] ≠ []) ∧
      (((compute_indicators [exPrice] defaultSettings 0).map (fun r => r.symbol)).Nodup
       ∧ (∀ sym, sym ∈ (compute_indicators [exPrice] defaultSettings 0).map
            (fun r => r.symbol) ↔ sym ∈ [exPrice].map (fun p => p.symbol))
       ∧ ∀ r ∈ compute_indicators [exPrice] defaultSettings 0,
           (∃ p ∈ [exPrice], p.symbol = r.symbol ∧ p.ts_utc = r.ts_utc)
           ∧ ∀ p ∈ [exPrice], p.symbol = r.symbol → p.ts_utc ≤ r.ts_utc) :=
  ⟨by simp, C9_one_row_per_symbol [exPrice] defaultSettings 0 (by simp)⟩

theorem C10_no_null_indicator_fields_witness :
    (exOut ∈ compute_indicators [exPrice] defaultSettings 0) ∧
      (exOut.ma20.isSome ∧ exOut.ma50.isSome ∧ exOut.rsi14.isSome
       ∧ ∀ p : PriceRow,
          (compute_indicators [p] defaultSettings 0).map
              (fun o => (o.ma20, o.ma50, o.rsi14)) =
            [(some p.close, some p.close, some 0)]) :=
  ⟨exOut_mem, C10_no_null_indicator_fields [exPrice] defaultSettings 0 exOut exOut_mem⟩

theorem C5_signal_conditions_witness :
    (exOut ∈ compute_indicators [exPrice] defaultSettings 0) ∧
      ((exOut.signal = 1 ↔
        ((ma (symbolCloses [exPrice] exOut.symbol) 20).getLast?.getD 0 <
            (symbolCloses [exPrice] exOut.symbol).getLast?.getD 0
         ∧ (ma (symbolCloses [exPrice] exOut.symbol) 50).getLast?.getD 0 <
            (symbolCloses [exPrice] exOut.symbol).getLast?.getD 0
         ∧ (ma (symbolCloses [exPrice] exOut.symbol) 50).getLast?.getD 0 <
            (ma (symbolCloses [exPrice] exOut.symbol) 20).getLast?.getD 0
         ∧ defaultSettings.rsi_min ≤
            (rsi_wilder (symbolCloses [exPrice] exOut.symbol) 14).getLast?.getD 0
         ∧ (1 : ℤ) ∈ windowAt
              (isHighFlags (symbolCloses [exPrice] exOut.symbol)
                defaultSettings.high_lookback)
              defaultSettings.high_within_days
              ((symbolCloses [exPrice] exOut.symbol).length - 1)))
       ∧ defaultSettings.rsi_min = 55 ∧ defaultSettings.high_within_days = 5) :=
  ⟨exOut_mem, C5_signal_conditions [exPrice] defaultSettings 0 exOut exOut_mem⟩

/-- C8: `upsert_prices` is idempotent on both backends — applying the
identical batch twice leaves the store exactly as after one application —
and an empty batch is a no-op.  The SQLite table is key-sorted in every
reachable state, which the hypothesis captures. -/
theorem C8_upsert_idempotent (st : CsvStore) (db : SqliteDB) (rows : List PriceRow)
    (hdb : SortedKeys priceKey db.prices) :
    ((st.upsert_prices rows).upsert_prices rows = st.upsert_prices rows)
    ∧ st.upsert_prices [] = st
    ∧ ((db.upsert_prices rows).upsert_prices rows = db.upsert_prices rows)
    ∧ db.upsert_prices [] = db := by
  obtain ⟨pf, indf⟩ := st
  obtain ⟨dbp, dbi⟩ := db
  refine ⟨?_, rfl, ?_, rfl⟩
  · cases rows with
    | nil => rfl
    | cons r rs =>
      show CsvStore.mk (some (csvCombine priceKey (csvCombine priceKey (pf.getD []) (r :: rs)) (r :: rs))) indf = CsvStore.mk (some (csvCombine priceKey (pf.getD []) (r :: rs))) indf
      rw [csvCombine_idem]
  · show SqliteDB.mk (upsertList priceKey rows (upsertList priceKey rows dbp)) dbi = SqliteDB.mk (upsertList priceKey rows dbp) dbi
    rw [upsertList_idem priceKey rows dbp hdb]

theorem C8_upsert_idempotent_witness :
    SortedKeys priceKey emptyDB.prices ∧
      (((emptyCsv.upsert_prices [exPrice]).upsert_prices [exPrice] =
          emptyCsv.upsert_prices [exPrice])
       ∧ emptyCsv.upsert_prices [] = emptyCsv
       ∧ ((emptyDB.upsert_prices [exPrice]).upsert_prices [exPrice] =
          emptyDB.upsert_prices [exPrice])
       ∧ emptyDB.upsert_prices [] = emptyDB) :=
  ⟨List.Pairwise.nil,
    C8_upsert_idempotent emptyCsv emptyDB [exPrice] List.Pairwise.nil⟩

/-! ## Spec-side characterizations for the summary query -/

/-- Written from the spec: `sel` is the summary's selected price row for
`sym` — a row of the store for that symbol, within the optional cutoff,
with the greatest timestamp among such rows. -/
def IsLatestAt (prices : List PriceRow) (endU : Option ℤ) (sym : String)
    (sel : PriceRow) : Prop :=
  sel ∈ prices ∧ sel.symbol = sym
  ∧ (∀ e, endU = some e → sel.ts_utc ≤ e)
  ∧ ∀ q ∈ prices, q.symbol = sym → (∀ e, endU = some e → q.ts_utc ≤ e) →
      q.ts_utc ≤ sel.ts_utc

/-- Written from the spec: the 1-day percent change value `v` for the
selected row `sel` — computed from the last price row of the symbol
strictly before local midnight of `sel`'s local calendar day as
`(latestClose - priorClose)/priorClose * 100`, and null when no such row
exists or the prior close is zero. -/
def PriorRowSpec (prices : List PriceRow) (cfg : Settings) (sel : PriceRow)
    (v : Option ℚ) : Prop :=
  (∃ q ∈ prices, q.symbol = sel.symbol
      ∧ q.ts_utc < localDayStartUtc cfg sel.ts_utc
      ∧ (∀ q' ∈ prices, q'.symbol = sel.symbol →
          q'.ts_utc < localDayStartUtc cfg sel.ts_utc → q'.ts_utc ≤ q.ts_utc)
      ∧ v = (if q.close = 0 then none
             else some ((sel.close - q.close) / q.close * 100)))
  ∨ ((∀ q ∈ prices, q.symbol = sel.symbol →
        ¬ q.ts_utc < localDayStartUtc cfg sel.ts_utc) ∧ v = none)

theorem localDayStartUtc_le (cfg : Settings) (t : ℤ) : localDayStartUtc cfg t ≤ t := by
  rw [localDayStartUtc]
  have h1 : (t + cfg.tzOffset).fdiv 86400 * 86400 ≤ t + cfg.tzOffset := by
    rw [Int.fdiv_eq_ediv _ (by norm_num)]
    exact Int.ediv_mul_le _ (by norm_num)
  omega

theorem argmaxStep_none {α : Type} (ts : α → ℤ) (r : α) :
    argmaxStep ts none r = some r := rfl

theorem argmaxStep_some {α : Type} (ts : α → ℤ) (a r : α) :
    argmaxStep ts (some a) r = if ts a < ts r then some r else some a := rfl

theorem argmax_aux {α : Type} (ts : α → ℤ) :
    ∀ (l : List α) (a : α),
      ∃ b, l.foldl (argmaxStep ts) (some a) = some b
        ∧ (b = a ∨ b ∈ l) ∧ ts a ≤ ts b ∧ ∀ x ∈ l, ts x ≤ ts b
  | [], a => ⟨a, rfl, Or.inl rfl, le_refl _, by simp⟩
  | x :: xs, a => by
    rw [List.foldl_cons, argmaxStep_some]
    by_cases h : ts a < ts x
    · rw [if_pos h]
      obtain ⟨b, h1, h2, h3, h4⟩ := argmax_aux ts xs x
      refine ⟨b, h1, ?_, le_trans (le_of_lt h) h3, ?_⟩
      · rcases h2 with rfl | h2
        · exact Or.inr (List.mem_cons_self b xs)
        · exact Or.inr (List.mem_cons_of_mem x h2)
      · intro y hy
        rcases List.mem_cons.mp hy with rfl | hy
        · exact h3
        · exact h4 y hy
    · rw [if_neg h]
      obtain ⟨b, h1, h2, h3, h4⟩ := argmax_aux ts xs a
      refine ⟨b, h1, ?_, h3, ?_⟩
      · rcases h2 with rfl | h2
        · exact Or.inl rfl
        · exact Or.inr (List.mem_cons_of_mem x h2)
      · intro y hy
        rcases List.mem_cons.mp hy with rfl | hy
        · exact le_trans (not_lt.mp h) h3
        · exact h4 y hy

theorem argmaxTs_eq_some {α : Type} (ts : α → ℤ) (l : List α) (b : α)
    (h : argmaxTs ts l = some b) : b ∈ l ∧ ∀ x ∈ l, ts x ≤ ts b := by
  cases l with
  | nil => simp [argmaxTs] at h
  | cons x xs =>
    rw [argmaxTs, List.foldl_cons, argmaxStep_none] at h
    obtain ⟨b', h1, h2, h3, h4⟩ := argmax_aux ts xs x
    rw [h1] at h
    obtain rfl : b' = b := by simpa using h
    constructor
    · rcases h2 with rfl | h2
      · exact List.mem_cons_self _ xs
      · exact List.mem_cons_of_mem x h2
    · intro y hy
      rcases List.mem_cons.mp hy with rfl | hy
      · exact h3
      · exact h4 y hy

theorem argmaxTs_eq_none {α : Type} (ts : α → ℤ) (l : List α)
    (h : argmaxTs ts l = none) : l = [] := by
  cases l with
  | nil => rfl
  | cons x xs =>
    rw [argmaxTs, List.foldl_cons, argmaxStep_none] at h
    obtain ⟨b', h1, h2, h3, h4⟩ := argmax_aux ts xs x
    rw [h1] at h
    simp at h

/-- Within one symbol (as carved out by any predicate implying it), rows
of a `(symbol, ts_utc)`-sorted list carry ascending timestamps. -/
theorem pairwise_ts_filter {l : List PriceRow}
    (hp : List.Pairwise (fun x y => rowLtBy priceKey y x = false) l)
    (pr : PriceRow → Bool) (sym : String) (hpr : ∀ r, pr r = true → r.symbol = sym) :
    List.Pairwise (fun a b => a.ts_utc ≤ b.ts_utc) (l.filter pr) := by
  refine (hp.filter pr).imp_of_mem ?_
  intro a b ha hb hab
  have hsa : a.symbol = sym := hpr a (List.mem_filter.mp ha).2
  have hsb : b.symbol = sym := hpr b (List.mem_filter.mp hb).2
  simp only [rowLtBy, keyLt, priceKey, Bool.or_eq_false_iff, Bool.and_eq_false_iff] at hab
  obtain ⟨-, hab2⟩ := hab
  rcases hab2 with h | h
  · simp only [decide_eq_false_iff_not] at h
    exact absurd (hsb.trans hsa.symm) h
  · simp only [decide_eq_false_iff_not, not_lt] at h
    exact h

theorem getLast?_eq_none_imp {α : Type} {l : List α} (h : l.getLast? = none) : l = [] := by
  by_contra hne
  exact getLast?_ne_none hne h

/-- C6: on both backends, every summary row's 1-day percent change is
`(latestClose - priorClose)/priorClose * 100` where the prior row is the
last price row strictly before local midnight of the selected row's local
calendar day, and it is null when no prior row exists or the prior close
is zero. -/
theorem C6_pct_change (db : SqliteDB) (st : CsvStore) (cfg : Settings) (asOf : Option ℤ)
    (r : SummaryOut) :
    (r ∈ db.get_latest_summary cfg asOf →
      ∃ sel, IsLatestAt db.prices (asOf.map (endOfDayUtc cfg)) r.symbol sel
        ∧ r.last_close = sel.close ∧ PriorRowSpec db.prices cfg sel r.pct_change_1d)
    ∧ (r ∈ st.get_latest_summary cfg asOf →
      ∃ sel, IsLatestAt (st.pricesFile.getD []) (asOf.map (endOfDayUtc cfg)) r.symbol sel
        ∧ r.last_close = sel.close
        ∧ PriorRowSpec (st.pricesFile.getD []) cfg sel r.pct_change_1d) := by
  constructor
  · intro hr
    simp only [SqliteDB.get_latest_summary] at hr
    obtain ⟨sym, hsym, hf⟩ := List.mem_filterMap.mp hr
    obtain ⟨p, hp, hgp⟩ := Option.map_eq_some'.mp hf
    obtain ⟨hpmem, hpub⟩ := argmaxTs_eq_some _ _ _ hp
    have hpfilt := List.mem_filter.mp hpmem
    have hpwin := List.mem_filter.mp hpfilt.1
    have hpsym : p.symbol = sym := by simpa using hpfilt.2
    subst hgp
    refine ⟨p, ⟨hpwin.1, hpsym, ?_, ?_⟩, rfl, ?_⟩
    · intro e he
      have := hpwin.2
      rw [he] at this
      simpa using this
    · intro q hq hqsym hqe
      have hqwin : q ∈ db.prices.filter (fun t => match asOf.map (endOfDayUtc cfg) with
          | some e => decide (t.ts_utc ≤ e)
          | none => true) := by
        refine List.mem_filter.mpr ⟨hq, ?_⟩
        cases he : asOf.map (endOfDayUtc cfg) with
        | none => simp
        | some e => simpa using hqe e he
      exact hpub q (List.mem_filter.mpr ⟨hqwin, by simpa using hqsym⟩)
    · show PriorRowSpec db.prices cfg p (pctChange p.close (argmaxTs (fun t => t.ts_utc)
        (db.prices.filter (fun q => decide (q.symbol = sym) &&
          decide (q.ts_utc < localDayStartUtc cfg p.ts_utc)))))
      cases hprev : argmaxTs (fun t => t.ts_utc)
          (db.prices.filter (fun q => decide (q.symbol = sym) &&
            decide (q.ts_utc < localDayStartUtc cfg p.ts_utc))) with
      | none =>
        right
        have hnil := argmaxTs_eq_none _ _ hprev
        refine ⟨?_, by simp [pctChange]⟩
        intro q hq hqsym hqlt
        have : q ∈ db.prices.filter (fun q => decide (q.symbol = sym) &&
            decide (q.ts_utc < localDayStartUtc cfg p.ts_utc)) :=
          List.mem_filter.mpr ⟨hq, by simp [hqsym.trans hpsym, hqlt]⟩
        rw [hnil] at this
        simp at this
      | some q =>
        left
        obtain ⟨hqmem, hqub⟩ := argmaxTs_eq_some _ _ _ hprev
        have hqf := List.mem_filter.mp hqmem
        have hqflag := hqf.2
        rw [Bool.and_eq_true] at hqflag
        refine ⟨q, hqf.1, ?_, by simpa using hqflag.2, ?_, by simp [pctChange]⟩
        · have : q.symbol = sym := by simpa using hqflag.1
          rw [this, hpsym]
        · intro q' hq' hq'sym hq'lt
          refine hqub q' (List.mem_filter.mpr ⟨hq', ?_⟩)
          rw [Bool.and_eq_true]
          exact ⟨by simpa using hq'sym.trans hpsym, by simpa using hq'lt⟩
  · intro hr
    cases hpf : st.pricesFile with
    | none =>
      simp [CsvStore.get_latest_summary, hpf] at hr
    | some df0 =>
      cases df0 with
      | nil =>
        simp [CsvStore.get_latest_summary, hpf] at hr
      | cons d ds =>
        simp only [CsvStore.get_latest_summary, hpf] at hr
        simp only [hpf, Option.getD_some]
        obtain ⟨sym, hsym, hf⟩ := List.mem_filterMap.mp hr
        obtain ⟨p, hp, hgp⟩ := Option.map_eq_some'.mp hf
        have hperm := sortByLt_perm (rowLtBy priceKey) (d :: ds)
        have hsortle := pairwise_sortByLt (rowLtBy priceKey)
          (fun a b h => keyLt_asymm h) (fun a b c h => keyLt_cotrans h) (d :: ds)
        have hpmem := mem_of_getLast?_eq hp
        have hpfilt := List.mem_filter.mp hpmem
        have hpwin := List.mem_filter.mp hpfilt.1
        have hpsym : p.symbol = sym := by simpa using hpfilt.2
        have hpdf : p ∈ d :: ds := hperm.mem_iff.mp hpwin.1
        have hdfPle : List.Pairwise (fun x y => rowLtBy priceKey y x = false)
            ((sortByLt (rowLtBy priceKey) (d :: ds)).filter
              (fun t => match asOf.map (endOfDayUtc cfg) with
                | some e => decide (t.ts_utc ≤ e)
                | none => true)) :=
          hsortle.filter _
        subst hgp
        refine ⟨p, ⟨hpdf, hpsym, ?_, ?_⟩, rfl, ?_⟩
        · intro e he
          have := hpwin.2
          rw [he] at this
          simpa using this
        · intro q hq hqsym hqe
          have hqsorted : q ∈ sortByLt (rowLtBy priceKey) (d :: ds) :=
            hperm.mem_iff.mpr hq
          have hqwin : q ∈ (sortByLt (rowLtBy priceKey) (d :: ds)).filter
              (fun t => match asOf.map (endOfDayUtc cfg) with
                | some e => decide (t.ts_utc ≤ e)
                | none => true) := by
            refine List.mem_filter.mpr ⟨hqsorted, ?_⟩
            cases he : asOf.map (endOfDayUtc cfg) with
            | none => simp
            | some e => simpa using hqe e he
          have hqgrp : q ∈ ((sortByLt (rowLtBy priceKey) (d :: ds)).filter
              (fun t => match asOf.map (endOfDayUtc cfg) with
                | some e => decide (t.ts_utc ≤ e)
                | none => true)).filter (fun t => decide (t.symbol = sym)) :=
            List.mem_filter.mpr ⟨hqwin, by simpa using hqsym⟩
          have hpw := pairwise_ts_filter hdfPle (fun t => decide (t.symbol = sym)) sym
            (fun t ht => by simpa using ht)
          rcases pairwise_getLast hpw hp q hqgrp with rfl | hle
          · exact le_refl _
          · exact hle
        · cases hprev : (((sortByLt (rowLtBy priceKey) (d :: ds)).filter
              (fun t => match asOf.map (endOfDayUtc cfg) with
                | some e => decide (t.ts_utc ≤ e)
                | none => true)).filter
              (fun q => decide (q.symbol = sym) &&
                decide (q.ts_utc < localDayStartUtc cfg p.ts_utc))).getLast? with
          | none =>
            right
            have hnil := getLast?_eq_none_imp hprev
            refine ⟨?_, by simp [pctChange, hprev]⟩
            intro q hq hqsym hqlt
            have hqsorted : q ∈ sortByLt (rowLtBy priceKey) (d :: ds) :=
              hperm.mem_iff.mpr hq
            have hqwin : q ∈ (sortByLt (rowLtBy priceKey) (d :: ds)).filter
                (fun t => match asOf.map (endOfDayUtc cfg) with
                  | some e => decide (t.ts_utc ≤ e)
                  | none => true) := by
              refine List.mem_filter.mpr ⟨hqsorted, ?_⟩
              cases he : asOf.map (endOfDayUtc cfg) with
              | none => simp
              | some e =>
                have hpe : p.ts_utc ≤ e := by
                  have := hpwin.2
                  rw [he] at this
                  simpa using this
                have : q.ts_utc ≤ e :=
                  le_trans (le_of_lt (lt_of_lt_of_le hqlt (localDayStartUtc_le cfg _))) hpe
                simpa using this
            have : q ∈ ((sortByLt (rowLtBy priceKey) (d :: ds)).filter
                (fun t => match asOf.map (endOfDayUtc cfg) with
                  | some e => decide (t.ts_utc ≤ e)
                  | none => true)).filter
                (fun t => decide (t.symbol = sym) &&
                  decide (t.ts_utc < localDayStartUtc cfg p.ts_utc)) := by
              refine List.mem_filter.mpr ⟨hqwin, ?_⟩
              rw [Bool.and_eq_true]
              exact ⟨by simpa using hqsym.trans hpsym, by simpa using hqlt⟩
            rw [hnil] at this
            simp at this
          | some q =>
            left
            have hqmem := mem_of_getLast?_eq hprev
            have hqf := List.mem_filter.mp hqmem
            have hqflag := hqf.2
            rw [Bool.and_eq_true] at hqflag
            have hqwin2 := List.mem_filter.mp hqf.1
            refine ⟨q, hperm.mem_iff.mp hqwin2.1, ?_, by simpa using hqflag.2, ?_,
              by simp [pctChange, hprev]⟩
            · have : q.symbol = sym := by simpa using hqflag.1
              rw [this, hpsym]
            · intro q' hq' hq'sym hq'lt
              have hq'sorted : q' ∈ sortByLt (rowLtBy priceKey) (d :: ds) :=
                hperm.mem_iff.mpr hq'
              have hq'win : q' ∈ (sortByLt (rowLtBy priceKey) (d :: ds)).filter
                  (fun t => match asOf.map (endOfDayUtc cfg) with
                    | some e => decide (t.ts_utc ≤ e)
                    | none => true) := by
                refine List.mem_filter.mpr ⟨hq'sorted, ?_⟩
                cases he : asOf.map (endOfDayUtc cfg) with
                | none => simp
                | some e =>
                  have hpe : p.ts_utc ≤ e := by
                    have := hpwin.2
                    rw [he] at this
                    simpa using this
                  have : q'.ts_utc ≤ e :=
                    le_trans (le_of_lt (lt_of_lt_of_le hq'lt (localDayStartUtc_le cfg _))) hpe
                  simpa using this
              have hq'grp : q' ∈ ((sortByLt (rowLtBy priceKey) (d :: ds)).filter
                  (fun t => match asOf.map (endOfDayUtc cfg) with
                    | some e => decide (t.ts_utc ≤ e)
                    | none => true)).filter
                  (fun t => decide (t.symbol = sym) &&
                    decide (t.ts_utc < localDayStartUtc cfg p.ts_utc)) := by
                refine List.mem_filter.mpr ⟨hq'win, ?_⟩
                rw [Bool.and_eq_true]
                exact ⟨by simpa using hq'sym.trans hpsym, by simpa using hq'lt⟩
              have hpw2 := pairwise_ts_filter hdfPle
                (fun t => decide (t.symbol = sym) &&
                  decide (t.ts_utc < localDayStartUtc cfg p.ts_utc)) sym
                (fun t ht => by
                  rw [Bool.and_eq_true] at ht
                  simpa using ht.1)
              rcases pairwise_getLast hpw2 hprev q' hq'grp with rfl | hle
              · exact le_refl _
              · exact hle

def exPrice2 : PriceRow :=
  { symbol := "AAA", ts_utc := 100000, open_px := 11, high := 11, low := 11, close := 11,
    volume := 6 }

def dbPair : SqliteDB := emptyDB.upsert_prices [exPrice, exPrice2]

def stPair : CsvStore := emptyCsv.upsert_prices [exPrice, exPrice2]

/-- The summary row both backends produce for `dbPair`/`stPair`:
`exPrice2` (ts 100000, local day 1) is selected, `exPrice` (ts 100,
local day 0) is the prior row, so the 1-day change is
`(11 - 10)/10 * 100 = 10`. -/
def exSum : SummaryOut :=
  { symbol := "AAA", last_close := 11, pct_change_1d := some 10, ma20 := none,
    ma50 := none, rsi14 := none, is_30d_high := false, signal := false,
    updated_min := 2086 }

theorem dbPair_summary : dbPair.get_latest_summary defaultSettings none = [exSum] := by
  simp [dbPair, SqliteDB.get_latest_summary, SqliteDB.upsert_prices, emptyDB, upsertList,
    insertReplace, exPrice, exPrice2, exSum, argmaxTs, argmaxStep, sortByLt, insertByLt,
    strLt, charListLt, charLt, rowLtBy, keyLt, priceKey, pctChange, displayMin,
    localDayStartUtc, defaultSettings, Int.fdiv_eq_ediv]
  norm_num

theorem stPair_summary : stPair.get_latest_summary defaultSettings none = [exSum] := by
  simp [stPair, CsvStore.get_latest_summary, CsvStore.upsert_prices, emptyCsv, csvCombine,
    dedupKeepLast, exPrice, exPrice2, exSum, sortByLt, insertByLt, rowLtBy, keyLt, strLt,
    charListLt, charLt, priceKey, pctChange, displayMin, localDayStartUtc,
    defaultSettings, Int.fdiv_eq_ediv]
  norm_num

theorem C6_pct_change_witness :
    (exSum ∈ dbPair.get_latest_summary defaultSettings none)
    ∧ (exSum ∈ stPair.get_latest_summary defaultSettings none)
    ∧ (∃ sel, IsLatestAt dbPair.prices (Option.map (endOfDayUtc defaultSettings) none)
          exSum.symbol sel
        ∧ exSum.last_close = sel.close
        ∧ PriorRowSpec dbPair.prices defaultSettings sel exSum.pct_change_1d)
    ∧ (∃ sel, IsLatestAt (stPair.pricesFile.getD [])
          (Option.map (endOfDayUtc defaultSettings) none) exSum.symbol sel
        ∧ exSum.last_close = sel.close
        ∧ PriorRowSpec (stPair.pricesFile.getD []) defaultSettings sel
            exSum.pct_change_1d) :=
  ⟨by rw [dbPair_summary]; exact List.mem_singleton.mpr rfl,
   by rw [stPair_summary]; exact List.mem_singleton.mpr rfl,
   (C6_pct_change dbPair stPair defaultSettings none exSum).1
     (by rw [dbPair_summary]; exact List.mem_singleton.mpr rfl),
   (C6_pct_change dbPair stPair defaultSettings none exSum).2
     (by rw [stPair_summary]; exact List.mem_singleton.mpr rfl)⟩

/-! ## Backend divergences (claims C1, C2, C3)

`exPrice` is the only price row of symbol `"AAA"`; `exInd` is an
indicator row for `"AAA"` whose timestamp 50 differs from the price
row's timestamp 100; `exIndB` is an indicator row for a symbol `"BBB"`
that has no price row. -/

def dbC1 : SqliteDB := (emptyDB.upsert_prices [exPrice]).upsert_indicators [exInd]

def stC1 : CsvStore := (emptyCsv.upsert_prices [exPrice]).upsert_indicators [exInd]

def dbC3 : SqliteDB := (emptyDB.upsert_prices [exPrice]).upsert_indicators [exIndB]

def stC3 : CsvStore := (emptyCsv.upsert_prices [exPrice]).upsert_indicators [exIndB]

/-- C1: the two backends are not observationally equivalent.  After the
identical upsert sequence on fresh stores, `get_latest_summary(None)`
joins `exInd` on the SQLite backend (latest indicator per symbol) but
misses it on the CSV backend (exact `(symbol, ts_utc)` merge), so the
ma/rsi fields, both boolean fields (`bool(NaN)` is `True`) and the
display timestamp source all differ. -/
theorem C1_backend_divergence :
    dbC1.get_latest_summary defaultSettings none =
      [{ symbol := "AAA", last_close := 10, pct_change_1d := none, ma20 := some 1,
         ma50 := some 2, rsi14 := some 50, is_30d_high := true, signal := false,
         updated_min := 420 }]
    ∧ stC1.get_latest_summary defaultSettings none =
      [{ symbol := "AAA", last_close := 10, pct_change_1d := none, ma20 := none,
         ma50 := none, rsi14 := none, is_30d_high := true, signal := true,
         updated_min := 421 }]
    ∧ dbC1.get_latest_summary defaultSettings none ≠
        stC1.get_latest_summary defaultSettings none := by
  refine ⟨?_, ?_, ?_⟩
  · simp [dbC1, SqliteDB.get_latest_summary, SqliteDB.upsert_prices,
      SqliteDB.upsert_indicators, emptyDB, upsertList, insertReplace, exPrice, exInd,
      argmaxTs, argmaxStep, sortByLt, insertByLt, strLt, charListLt, charLt, rowLtBy,
      keyLt, priceKey, indKey, pctChange, displayMin, localDayStartUtc, defaultSettings,
      Int.fdiv_eq_ediv]
  · simp [stC1, CsvStore.get_latest_summary, CsvStore.upsert_prices,
      CsvStore.upsert_indicators, emptyCsv, csvCombine, dedupKeepLast, exPrice, exInd,
      sortByLt, insertByLt, rowLtBy, keyLt, strLt, charListLt, charLt, priceKey, indKey,
      pctChange, displayMin, localDayStartUtc, defaultSettings, Int.fdiv_eq_ediv]
  · intro h
    rw [show dbC1.get_latest_summary defaultSettings none =
        [{ symbol := "AAA", last_close := 10, pct_change_1d := none, ma20 := some 1,
           ma50 := some 2, rsi14 := some 50, is_30d_high := true, signal := false,
           updated_min := 420 }] from by
      simp [dbC1, SqliteDB.get_latest_summary, SqliteDB.upsert_prices,
        SqliteDB.upsert_indicators, emptyDB, upsertList, insertReplace, exPrice, exInd,
        argmaxTs, argmaxStep, sortByLt, insertByLt, strLt, charListLt, charLt, rowLtBy,
        keyLt, priceKey, indKey, pctChange, displayMin, localDayStartUtc,
        defaultSettings, Int.fdiv_eq_ediv]] at h
    rw [show stC1.get_latest_summary defaultSettings none =
        [{ symbol := "AAA", last_close := 10, pct_change_1d := none, ma20 := none,
           ma50 := none, rsi14 := none, is_30d_high := true, signal := true,
           updated_min := 421 }] from by
      simp [stC1, CsvStore.get_latest_summary, CsvStore.upsert_prices,
        CsvStore.upsert_indicators, emptyCsv, csvCombine, dedupKeepLast, exPrice, exInd,
        sortByLt, insertByLt, rowLtBy, keyLt, strLt, charListLt, charLt, priceKey,
        indKey, pctChange, displayMin, localDayStartUtc, defaultSettings,
        Int.fdiv_eq_ediv]] at h
    simp at h

/-- Written from the spec: the as-of join — the indicator row for `sym`
whose timestamp is the greatest one at or before `t`. -/
def asofIndicator (inds : List IndicatorRow) (sym : String) (t : ℤ) : Option IndicatorRow :=
  argmaxTs (fun i => i.ts_utc)
    (inds.filter (fun i => decide (i.symbol = sym) && decide (i.ts_utc ≤ t)))

/-- C2: the CSV backend's `get_symbol` does not perform the as-of join.
The store holds an indicator row for `"AAA"` at timestamp 50 ≤ 100, the
as-of join selects it, and the SQLite backend returns its fields — but
the CSV backend's exact-timestamp merge misses it and returns nulls. -/
theorem C2_asof_join_divergence :
    (stC1.get_symbol "AAA" 10).map (fun o => (o.ts_utc, o.ma20, o.is_30d_high)) =
      [(100, none, none)]
    ∧ asofIndicator [exInd] "AAA" 100 = some exInd
    ∧ exInd.ma20 = some 1
    ∧ (dbC1.get_symbol "AAA" 10).map (fun o => (o.ts_utc, o.ma20, o.is_30d_high)) =
      [(100, some 1, some 1)] := by
  refine ⟨?_, ?_, rfl, ?_⟩
  · simp [stC1, CsvStore.get_symbol, CsvStore.upsert_prices, CsvStore.upsert_indicators,
      emptyCsv, csvCombine, dedupKeepLast, exPrice, exInd, sortByLt, insertByLt,
      rowLtBy, keyLt, strLt, charListLt, charLt, priceKey, indKey, List.find?]
  · simp [asofIndicator, argmaxTs, argmaxStep, exInd]
  · simp [dbC1, SqliteDB.get_symbol, SqliteDB.upsert_prices, SqliteDB.upsert_indicators,
      emptyDB, upsertList, insertReplace, exPrice, exInd, argmaxTs, argmaxStep, sortByLt,
      insertByLt, priceKey, indKey]

/-- C3: with a price row for `"AAA"` and no indicator row for `"AAA"`
anywhere (the only indicator row belongs to `"BBB"`), the SQLite summary
defaults the missing booleans to `false`, but the CSV summary returns
`true` for both, because the missed merge leaves `NaN` in the columns
and Python's `bool(nan)` is `True`. -/
theorem C3_missing_indicator_defaults :
    ([exIndB].filter (fun i => decide (i.symbol = "AAA")) = [])
    ∧ (dbC3.get_latest_summary defaultSettings none).map
        (fun r => (r.symbol, r.is_30d_high, r.signal)) = [("AAA", false, false)]
    ∧ (stC3.get_latest_summary defaultSettings none).map
        (fun r => (r.symbol, r.is_30d_high, r.signal)) = [("AAA", true, true)] := by
  refine ⟨by simp [exIndB], ?_, ?_⟩
  · simp [dbC3, SqliteDB.get_latest_summary, SqliteDB.upsert_prices,
      SqliteDB.upsert_indicators, emptyDB, upsertList, insertReplace, exPrice, exIndB,
      argmaxTs, argmaxStep, sortByLt, insertByLt, strLt, charListLt, charLt, rowLtBy,
      keyLt, priceKey, indKey, pctChange, displayMin, localDayStartUtc, defaultSettings,
      Int.fdiv_eq_ediv]
  · simp [stC3, CsvStore.get_latest_summary, CsvStore.upsert_prices,
      CsvStore.upsert_indicators, emptyCsv, csvCombine, dedupKeepLast, exPrice, exIndB,
      sortByLt, insertByLt, rowLtBy, keyLt, strLt, charListLt, charLt, priceKey, indKey,
      pctChange, displayMin, localDayStartUtc, defaultSettings, Int.fdiv_eq_ediv]

end IdxList
